import Mathlib

/-!
# Task-Marshal persistence core: a shallow embedding

This file embeds the persistence core of the task-marshal repository in
Lean 4 and proves properties of it:

* `src/utils/integrity.ts` — `IntegrityManager` (digest + keyed MAC),
* `src/utils/filesystem.ts` — `FilesystemManager` (signed content files under
  `root/<initiativeId>/`),
* `src/utils/journal.ts` — `JournalManager` (append-only `journal.jsonl`),
* `DependencyManager` (cycle detection, chronological validation).

Modelling conventions:

* The filesystem is a finite map from paths (lists of segments) to entries
  (directory or file).  `path.join` concatenates, splitting arguments on the
  separator character, so that initiative/task ids containing a separator are
  represented faithfully.  (`.`/`..` resolution is not modelled; no theorem
  below depends on ids containing such segments.)
* SHA-256 digests and HMAC-SHA-256 values are modelled symbolically, as free
  constructors of the file-content type (the standard ideal model of
  collision-free primitives): two digests are equal exactly when their inputs
  are, which is the working assumption of the source's integrity design.
* `JSON.stringify`/`JSON.parse` are modelled at the level of the value
  tree: runtime values (`JsVal`, JSON trees that may also hold `Date`
  objects) serialize to plain JSON trees (`Json`), with each `Date`
  rendered as its ISO string; a serialized value is represented by its JSON
  tree together with the serialization options, and parsing recovers that
  tree — parsing never produces a `Date`.  Text that does not parse is
  represented by a `raw` constructor.
* Asynchronous effects are sequentialized (the claims under study concern
  single-threaded use); a rejected promise is an `Option String` error result,
  and every mutating operation also returns the (possibly partially updated)
  store, since real filesystem effects before a failure persist.
-/

namespace TaskMarshal

/-! ## JSON values

The JSON value tree manipulated by `JSON.stringify` / `JSON.parse`.
Object fields keep their key order (as JavaScript objects do); numbers are
modelled as integers (no claim involves fractional numeric data).
-/

inductive Json where
  | null
  | bool (b : Bool)
  | num (n : Int)
  | str (s : String)
  | arr (elems : List Json)
  | obj (fields : List (String × Json))

mutual

/-- Structural equality test on JSON values (mirrors deep value equality). -/
def Json.beq : Json → Json → Bool
  | .null, .null => true
  | .bool a, .bool c => a == c
  | .num a, .num c => a == c
  | .str a, .str c => a == c
  | .arr as, .arr cs => Json.beqList as cs
  | .obj fs, .obj gs => Json.beqFields fs gs
  | _, _ => false

/-- Elementwise equality test on JSON arrays. -/
def Json.beqList : List Json → List Json → Bool
  | [], [] => true
  | a :: as, c :: cs => Json.beq a c && Json.beqList as cs
  | _, _ => false

/-- Fieldwise equality test on JSON object field lists. -/
def Json.beqFields : List (String × Json) → List (String × Json) → Bool
  | [], [] => true
  | (k, a) :: fs, (l, c) :: gs => k == l && Json.beq a c && Json.beqFields fs gs
  | _, _ => false

end

mutual

theorem Json.beq_refl : ∀ a : Json, Json.beq a a = true
  | .null => by simp [Json.beq]
  | .bool b => by simp [Json.beq]
  | .num n => by simp [Json.beq]
  | .str s => by simp [Json.beq]
  | .arr as => by simp [Json.beq]; exact Json.beqList_refl as
  | .obj fs => by simp [Json.beq]; exact Json.beqFields_refl fs

theorem Json.beqList_refl : ∀ as : List Json, Json.beqList as as = true
  | [] => by simp [Json.beqList]
  | a :: as => by
      simp [Json.beqList]
      exact ⟨Json.beq_refl a, Json.beqList_refl as⟩

theorem Json.beqFields_refl : ∀ fs : List (String × Json), Json.beqFields fs fs = true
  | [] => by simp [Json.beqFields]
  | (k, a) :: fs => by
      simp [Json.beqFields]
      exact ⟨Json.beq_refl a, Json.beqFields_refl fs⟩

end

mutual

theorem Json.eq_of_beq : ∀ a c : Json, Json.beq a c = true → a = c
  | .null, c, h => by cases c <;> simp_all [Json.beq]
  | .bool a, c, h => by cases c <;> simp_all [Json.beq]
  | .num a, c, h => by cases c <;> simp_all [Json.beq]
  | .str a, c, h => by cases c <;> simp_all [Json.beq]
  | .arr as, c, h => by
      cases c <;> simp_all [Json.beq]
      exact Json.eqList_of_beq as _ h
  | .obj fs, c, h => by
      cases c <;> simp_all [Json.beq]
      exact Json.eqFields_of_beq fs _ h

theorem Json.eqList_of_beq : ∀ as cs : List Json, Json.beqList as cs = true → as = cs
  | [], cs, h => by cases cs <;> simp_all [Json.beqList]
  | a :: as, cs, h => by
      cases cs with
      | nil => simp_all [Json.beqList]
      | cons c cs =>
          simp only [Json.beqList, Bool.and_eq_true] at h
          have h1 := Json.eq_of_beq a c h.1
          have h2 := Json.eqList_of_beq as cs h.2
          rw [h1, h2]

theorem Json.eqFields_of_beq :
    ∀ fs gs : List (String × Json), Json.beqFields fs gs = true → fs = gs
  | [], gs, h => by cases gs <;> simp_all [Json.beqFields]
  | (k, a) :: fs, gs, h => by
      cases gs with
      | nil => simp_all [Json.beqFields]
      | cons g gs =>
          obtain ⟨l, c⟩ := g
          simp only [Json.beqFields, Bool.and_eq_true, beq_iff_eq] at h
          have h1 := Json.eq_of_beq a c h.1.2
          have h2 := Json.eqFields_of_beq fs gs h.2
          rw [h.1.1, h1, h2]

end

instance : DecidableEq Json := fun a c =>
  decidable_of_iff (Json.beq a c = true)
    ⟨Json.eq_of_beq a c, fun h => h ▸ Json.beq_refl a⟩

/-! ## JSON helpers -/

namespace Json

/-- Property access `v[k]` on a parsed JSON value: the first field named `k`
of an object (parsed objects have unique keys), `undefined` (`none`)
otherwise. -/
def getField : Json → String → Option Json
  | .obj fs, k => (fs.find? (fun f => f.1 == k)).map (·.2)
  | _, _ => none

/-- JavaScript's `entry.id === entryId` where `entryId` is a string: true
exactly when the `id` property exists and is that string. -/
def idIs (v : Json) (entryId : String) : Bool :=
  match v.getField "id" with
  | some (.str s) => s == entryId
  | _ => false

/-- Replace the value of key `k` in a field list, keeping its position
(JavaScript object-spread update semantics); append the field if absent. -/
def fieldsSet : List (String × Json) → String → Json → List (String × Json)
  | [], k, v => [(k, v)]
  | (k', v') :: fs, k, v =>
      if k' == k then (k, v) :: fs else (k', v') :: fieldsSet fs k v

/-- `{ ...entry, status: 'completed' }` from `JournalManager.markComplete`.
Every call site guards on `entry.id === entryId`, which forces `entry` to be
an object, so only the `obj` branch is ever reached in the theorems below. -/
def setStatusCompleted : Json → Json
  | .obj fs => .obj (fieldsSet fs "status" (.str "completed"))
  | _ => .obj [("status", .str "completed")]

end Json

/-! ## Symbolic file contents

A file's byte content, represented symbolically at the granularity the
persistence core distinguishes: serialized JSON values, line-structured
journal text, hex digests / MAC values (free constructors: the ideal model
of collision-free SHA-256 / HMAC-SHA-256), and other raw text (text that is
not valid JSON).
-/

/-- One line of a `.jsonl` journal file: either the `JSON.stringify` output
of a value (which contains no raw newline), or text that is not valid JSON
(possibly whitespace-only). -/
inductive JLine where
  | ok (v : Json)
  | bad (s : String)

/-- Symbolic file content. -/
inductive FData where
  /-- Output of `JSON.stringify(v, null, indent)`. -/
  | jsonText (v : Json) (indent : Nat)
  /-- Text that is not valid JSON. -/
  | raw (s : String)
  /-- Hex SHA-256 digest of `data` (ideal primitive; not valid JSON). -/
  | sha256Hex (data : FData)
  /-- Hex HMAC-SHA-256 of `data` under `key` (ideal primitive; not valid JSON). -/
  | hmacHex (key : String) (data : FData)
  /-- Newline-separated line content, as produced by appending lines. -/
  | jsonl (lines : List JLine)

/-- Equality test for journal lines. -/
def JLine.beq : JLine → JLine → Bool
  | .ok v, .ok w => Json.beq v w
  | .bad s, .bad t => s == t
  | _, _ => false

theorem JLine.beq_iff : ∀ a c : JLine, JLine.beq a c = true ↔ a = c := by
  intro a c
  cases a <;> cases c <;> simp [JLine.beq, JLine.ok.injEq, JLine.bad.injEq]
  constructor
  · exact Json.eq_of_beq _ _
  · exact fun h => h ▸ Json.beq_refl _

instance : DecidableEq JLine := fun a c =>
  decidable_of_iff (JLine.beq a c = true) (JLine.beq_iff a c)

mutual

/-- Equality test for symbolic file contents. -/
def FData.beq : FData → FData → Bool
  | .jsonText v i, .jsonText w j => Json.beq v w && i == j
  | .raw s, .raw t => s == t
  | .sha256Hex d, .sha256Hex e => FData.beq d e
  | .hmacHex k d, .hmacHex l e => k == l && FData.beq d e
  | .jsonl ls, .jsonl ms => FData.beqLines ls ms
  | _, _ => false

/-- Elementwise equality test for line lists. -/
def FData.beqLines : List JLine → List JLine → Bool
  | [], [] => true
  | l :: ls, m :: ms => JLine.beq l m && FData.beqLines ls ms
  | _, _ => false

end

mutual

theorem FData.beq_self : ∀ a : FData, FData.beq a a = true
  | .jsonText v i => by simp [FData.beq, Json.beq_refl]
  | .raw s => by simp [FData.beq]
  | .sha256Hex d => by simp [FData.beq]; exact FData.beq_self d
  | .hmacHex k d => by simp [FData.beq]; exact FData.beq_self d
  | .jsonl ls => by simp [FData.beq]; exact FData.beqLines_refl ls

theorem FData.beqLines_refl : ∀ ls : List JLine, FData.beqLines ls ls = true
  | [] => by simp [FData.beqLines]
  | l :: ls => by
      simp [FData.beqLines, (JLine.beq_iff l l).2 rfl]
      exact FData.beqLines_refl ls

end

mutual

theorem FData.beq_implies_eq : ∀ a c : FData, FData.beq a c = true → a = c
  | .jsonText v i, c, h => by
      cases c <;> simp_all [FData.beq]
      first
      | exact ⟨Json.eq_of_beq _ _ h.1, h.2⟩
      | exact Json.eq_of_beq _ _ h.1
  | .raw s, c, h => by cases c <;> simp_all [FData.beq]
  | .sha256Hex d, c, h => by
      cases c <;> simp_all [FData.beq]
      exact FData.beq_implies_eq d _ h
  | .hmacHex k d, c, h => by
      cases c <;> simp_all [FData.beq]
      exact FData.beq_implies_eq d _ h.2
  | .jsonl ls, c, h => by
      cases c <;> simp_all [FData.beq]
      exact FData.eqLines_of_beq ls _ h

theorem FData.eqLines_of_beq : ∀ ls ms : List JLine, FData.beqLines ls ms = true → ls = ms
  | [], ms, h => by cases ms <;> simp_all [FData.beqLines]
  | l :: ls, ms, h => by
      cases ms with
      | nil => simp_all [FData.beqLines]
      | cons m ms =>
          simp only [FData.beqLines, Bool.and_eq_true] at h
          rw [(JLine.beq_iff l m).1 h.1, FData.eqLines_of_beq ls ms h.2]

end

instance : DecidableEq FData := fun a c =>
  decidable_of_iff (FData.beq a c = true)
    ⟨FData.beq_implies_eq a c, fun h => h ▸ FData.beq_self a⟩

/-- `JSON.parse` applied to a whole file's content.  Serialized values parse
back to themselves; a single well-formed journal line (the file ends in a
newline, which `JSON.parse` tolerates) also parses; digests, MAC values, raw
non-JSON text, and multi-line content fail to parse. -/
def FData.parseJson : FData → Option Json
  | .jsonText v _ => some v
  | .jsonl [.ok v] => some v
  | _ => none

/-! ## Strings and paths

Kernel-computable counterparts of the string operations the source uses
(`split`, `trim` truthiness, `endsWith`, `replace`), and paths as lists of
segments.  `join(a, b)` appends `b`'s separator-split segments to `a`, which
is what POSIX `path.join` does for arguments free of `.`/`..` segments.
-/

/-- Split a character list at `/` (the list of segments, in order). -/
def splitSlash : List Char → List (List Char)
  | [] => [[]]
  | c :: cs =>
      match splitSlash cs with
      | [] => [[]]
      | seg :: rest => if c = '/' then [] :: seg :: rest else (c :: seg) :: rest

/-- The `/`-separated segments of a string (`s.split('/')`). -/
def segsOf (s : String) : List String :=
  (splitSlash s.data).map (fun l => ⟨l⟩)

/-- A path: the list of its segments. -/
abbrev Path := List String

/-- `path.join(p, s)`: append `s`'s segments to `p`. -/
def pathJoin (p : Path) (s : String) : Path := p ++ segsOf s

/-- `` `${filePath}.sig` ``: the sidecar path, appending `.sig` to the last
segment. -/
def sigPath (p : Path) : Path :=
  match p.getLast? with
  | some l => p.dropLast ++ [l ++ ".sig"]
  | none => [".sig"]

/-- Truthiness of `line.trim()`: the string has a non-whitespace character. -/
def hasNonWs (s : String) : Bool := s.data.any (fun c => !c.isWhitespace)

/-- A directory entry: a directory or a file with content. -/
inductive Entry where
  | dir
  | file (content : FData)
deriving DecidableEq

/-- The file store. -/
abbrev St := List (Path × Entry)

/-- Look up the entry at a path. -/
def findE : St → Path → Option Entry
  | [], _ => none
  | (q, f) :: rest, p => if q = p then some f else findE rest p

/-- Set the entry at a path: replace in place if present, else append. -/
def setE : St → Path → Entry → St
  | [], p, e => [(p, e)]
  | (q, f) :: rest, p, e =>
      if q = p then (p, e) :: rest else (q, f) :: setE rest p e

/-- The non-empty prefixes of a path, shortest first. -/
def pathPrefixes (p : Path) : List Path :=
  (List.range p.length).map (fun k => p.take (k + 1))

/-- One step of recursive `fs.mkdir`: create the directory at `q` if nothing
is there; fail if a file is in the way. -/
def mkdirStep (acc : Option String × St) (q : Path) : Option String × St :=
  match acc with
  | (some e, st) => (some e, st)
  | (none, st) =>
      match findE st q with
      | some .dir => (none, st)
      | some (.file _) => (some "ENOTDIR", st)
      | none => (none, setE st q .dir)

/-- `fs.mkdir(p, { recursive: true })`: create every missing ancestor, then
the directory itself; directories created before a failure persist. -/
def mkdirp (st : St) (p : Path) : Option String × St :=
  (pathPrefixes p).foldl mkdirStep (none, st)

/-- `fs.readFile(p, 'utf8')`. -/
def readFileD (st : St) (p : Path) : Except String FData :=
  match findE st p with
  | some (.file c) => .ok c
  | some .dir => .error "EISDIR"
  | none => .error "ENOENT"

/-- `fs.writeFile(p, c, 'utf8')`: overwrite or create; the parent directory
must exist and the path must not be a directory. -/
def writeFileD (st : St) (p : Path) (c : FData) : Option String × St :=
  match findE st p with
  | some .dir => (some "EISDIR", st)
  | _ =>
      match findE st p.dropLast with
      | some .dir => (none, setE st p (.file c))
      | _ => (some "ENOENT", st)

/-- `fs.appendFile(p, line, 'utf8')` for one journal line: append to the
line-structured file at `p`, creating it if absent (the parent directory
must exist).  The journal path only ever holds line-structured content, so
appending to other content is left as an error. -/
def appendLineD (st : St) (p : Path) (l : JLine) : Option String × St :=
  match findE st p with
  | some (.file (.jsonl ls)) => (none, setE st p (.file (.jsonl (ls ++ [l]))))
  | some (.file _) => (some "append to non-jsonl content not modelled", st)
  | some .dir => (some "EISDIR", st)
  | none =>
      match findE st p.dropLast with
      | some .dir => (none, setE st p (.file (.jsonl [l])))
      | _ => (some "ENOENT", st)

/-- A JavaScript `Date` object, identified by its `toISOString`/`toJSON`
rendering (injective on valid dates).  A `Date` is an object, not a
string: `JSON.stringify` renders it as this string, and `JSON.parse` never
produces a `Date` back. -/
structure DateV where
  iso : String
deriving DecidableEq

/-- A JavaScript runtime value as handed to `JSON.stringify` by the
persistence layer: a JSON value tree that may also contain `Date`
objects.  Serialization (below) maps it to a `Json`; parsing yields plain
`Json`, never a `date`. -/
inductive JsVal where
  | null
  | bool (b : Bool)
  | num (n : Int)
  | str (s : String)
  | date (d : DateV)
  | arr (elems : List JsVal)
  | obj (fields : List (String × JsVal))

mutual

/-- Structural equality test on runtime values. -/
def JsVal.beq : JsVal → JsVal → Bool
  | .null, .null => true
  | .bool a, .bool c => a == c
  | .num a, .num c => a == c
  | .str a, .str c => a == c
  | .date a, .date c => a == c
  | .arr as, .arr cs => JsVal.beqList as cs
  | .obj fs, .obj gs => JsVal.beqFields fs gs
  | _, _ => false

/-- Elementwise equality test on runtime-value arrays. -/
def JsVal.beqList : List JsVal → List JsVal → Bool
  | [], [] => true
  | a :: as, c :: cs => JsVal.beq a c && JsVal.beqList as cs
  | _, _ => false

/-- Fieldwise equality test on runtime-value field lists. -/
def JsVal.beqFields :
    List (String × JsVal) → List (String × JsVal) → Bool
  | [], [] => true
  | (k, a) :: fs, (l, c) :: gs =>
      k == l && JsVal.beq a c && JsVal.beqFields fs gs
  | _, _ => false

end

mutual

theorem jsval_beq_refl : ∀ a : JsVal, JsVal.beq a a = true
  | .null => by simp [JsVal.beq]
  | .bool b => by simp [JsVal.beq]
  | .num n => by simp [JsVal.beq]
  | .str s => by simp [JsVal.beq]
  | .date d => by simp [JsVal.beq]
  | .arr as => by simp [JsVal.beq]; exact jsval_beqList_refl as
  | .obj fs => by simp [JsVal.beq]; exact jsval_beqFields_refl fs

theorem jsval_beqList_refl : ∀ as : List JsVal, JsVal.beqList as as = true
  | [] => by simp [JsVal.beqList]
  | a :: as => by
      simp [JsVal.beqList]
      exact ⟨jsval_beq_refl a, jsval_beqList_refl as⟩

theorem jsval_beqFields_refl :
    ∀ fs : List (String × JsVal), JsVal.beqFields fs fs = true
  | [] => by simp [JsVal.beqFields]
  | (k, a) :: fs => by
      simp [JsVal.beqFields]
      exact ⟨jsval_beq_refl a, jsval_beqFields_refl fs⟩

end

mutual

theorem jsval_eq_of_beq : ∀ a c : JsVal, JsVal.beq a c = true → a = c
  | .null, c, h => by cases c <;> simp_all [JsVal.beq]
  | .bool a, c, h => by cases c <;> simp_all [JsVal.beq]
  | .num a, c, h => by cases c <;> simp_all [JsVal.beq]
  | .str a, c, h => by cases c <;> simp_all [JsVal.beq]
  | .date a, c, h => by cases c <;> simp_all [JsVal.beq]
  | .arr as, c, h => by
      cases c <;> simp_all [JsVal.beq]
      exact jsval_eqList_of_beq as _ h
  | .obj fs, c, h => by
      cases c <;> simp_all [JsVal.beq]
      exact jsval_eqFields_of_beq fs _ h

theorem jsval_eqList_of_beq :
    ∀ as cs : List JsVal, JsVal.beqList as cs = true → as = cs
  | [], cs, h => by cases cs <;> simp_all [JsVal.beqList]
  | a :: as, cs, h => by
      cases cs with
      | nil => simp_all [JsVal.beqList]
      | cons c cs =>
          simp only [JsVal.beqList, Bool.and_eq_true] at h
          rw [jsval_eq_of_beq a c h.1, jsval_eqList_of_beq as cs h.2]

theorem jsval_eqFields_of_beq :
    ∀ fs gs : List (String × JsVal), JsVal.beqFields fs gs = true → fs = gs
  | [], gs, h => by cases gs <;> simp_all [JsVal.beqFields]
  | (k, a) :: fs, gs, h => by
      cases gs with
      | nil => simp_all [JsVal.beqFields]
      | cons g gs =>
          obtain ⟨l, c⟩ := g
          simp only [JsVal.beqFields, Bool.and_eq_true, beq_iff_eq] at h
          rw [h.1.1, jsval_eq_of_beq a c h.1.2, jsval_eqFields_of_beq fs gs h.2]

end

instance : DecidableEq JsVal := fun a c =>
  decidable_of_iff (JsVal.beq a c = true)
    ⟨jsval_eq_of_beq a c, fun h => h ▸ jsval_beq_refl a⟩

mutual

/-- `JSON.stringify` at the value level: the JSON tree whose text the
serializer emits.  A `Date` is rendered via `Date.prototype.toJSON` as its
ISO string; everything else is structure-preserving. -/
def JsVal.serialize : JsVal → Json
  | .null => .null
  | .bool b => .bool b
  | .num n => .num n
  | .str s => .str s
  | .date d => .str d.iso
  | .arr xs => .arr (JsVal.serializeList xs)
  | .obj fs => .obj (JsVal.serializeFields fs)

/-- Serialization of a runtime-value array. -/
def JsVal.serializeList : List JsVal → List Json
  | [] => []
  | v :: vs => JsVal.serialize v :: JsVal.serializeList vs

/-- Serialization of a runtime-value field list. -/
def JsVal.serializeFields : List (String × JsVal) → List (String × Json)
  | [] => []
  | (k, v) :: fs => (k, JsVal.serialize v) :: JsVal.serializeFields fs

end

mutual

/-- Replace every `Date` in a runtime value by its ISO string — the
value-level effect of a `stringify`/`parse` round trip. -/
def JsVal.strDates : JsVal → JsVal
  | .null => .null
  | .bool b => .bool b
  | .num n => .num n
  | .str s => .str s
  | .date d => .str d.iso
  | .arr xs => .arr (JsVal.strDatesList xs)
  | .obj fs => .obj (JsVal.strDatesFields fs)

/-- `strDates` on an array. -/
def JsVal.strDatesList : List JsVal → List JsVal
  | [] => []
  | v :: vs => JsVal.strDates v :: JsVal.strDatesList vs

/-- `strDates` on a field list. -/
def JsVal.strDatesFields : List (String × JsVal) → List (String × JsVal)
  | [] => []
  | (k, v) :: fs => (k, JsVal.strDates v) :: JsVal.strDatesFields fs

end

mutual

/-- The canonical reading of a parsed JSON tree as a runtime value (it
contains no `Date`). -/
def Json.toVal : Json → JsVal
  | .null => .null
  | .bool b => .bool b
  | .num n => .num n
  | .str s => .str s
  | .arr xs => .arr (Json.toValList xs)
  | .obj fs => .obj (Json.toValFields fs)

/-- `toVal` on an array. -/
def Json.toValList : List Json → List JsVal
  | [] => []
  | v :: vs => Json.toVal v :: Json.toValList vs

/-- `toVal` on a field list. -/
def Json.toValFields : List (String × Json) → List (String × JsVal)
  | [] => []
  | (k, v) :: fs => (k, Json.toVal v) :: Json.toValFields fs

end

/-- `Subtask` (`src/types/enhanced.ts`). -/
structure Subtask where
  id : String
  title : String
  status : String
  assignee : Option String
  dueDate : Option DateV
  insightCards : Option (List String)
  narrativeContext : Option String
  aiSignals : Option (List String)
  metadata : JsVal
deriving DecidableEq

/-- `Milestone` (`src/types/index.ts`). -/
structure Milestone where
  id : String
  name : String
  description : Option String
  dueDate : DateV
  status : String
  tasks : List String
deriving DecidableEq

/-- The enhanced `Task` interface (`src/types/enhanced.ts`): the base
`Task` fields of `src/types/index.ts` together with the enhanced module's
required overrides (`initiativeId`, `subtasks`, `governanceState`,
`visualPriority`, `insightCards`, `narrativeContext`, `aiSignals`). -/
structure Task where
  id : String
  title : String
  description : Option String
  priority : String
  status : String
  assignee : Option String
  dueDate : Option DateV
  createdAt : DateV
  updatedAt : DateV
  tags : List String
  projectId : Option String
  dependencies : Option (List String)
  initiativeId : String
  parentTaskId : Option String
  subtasks : List Subtask
  governanceState : String
  visualPriority : Int
  insightCards : List String
  narrativeContext : String
  aiSignals : List String
  team : Option (List String)
  milestones : Option (List Milestone)
  metadata : Option JsVal
deriving DecidableEq

/-- `Initiative` (`src/types/enhanced.ts`). -/
structure Initiative where
  id : String
  name : String
  description : Option String
  owner : String
  status : String
  createdAt : DateV
  updatedAt : DateV
  schemaVersion : String
  metadata : JsVal
deriving DecidableEq

/-- The `relationshipType` union of `DependencyContract`
(`src/types/enhanced.ts`): `blocks`, `depends-on`, or `follows`. -/
inductive DepKind where
  | blocks
  | dependsOn
  | follows
deriving DecidableEq

/-- The runtime string of a relationship kind. -/
def DepKind.toStr : DepKind → String
  | .blocks => "blocks"
  | .dependsOn => "depends-on"
  | .follows => "follows"

/-- The optional `sla` shape of a `DependencyContract`. -/
structure SlaSpec where
  targetDate : DateV
  toleranceHours : Int
deriving DecidableEq

/-- The optional `risk` shape of a `DependencyContract`. -/
structure RiskSpec where
  level : String
  mitigationPlan : String
  impactVector : List String
deriving DecidableEq

/-- The required `autonomy` shape of a `DependencyContract`. -/
structure AutonomySpec where
  requiresManualApproval : Bool
  escalationContact : Option String
deriving DecidableEq

/-- `DependencyContract` (`src/types/enhanced.ts`).  The source
properties `from`/`to` are reserved words in Lean and appear here as
`fromId`/`toId`. -/
structure DependencyContract where
  fromId : String
  toId : String
  relationshipType : DepKind
  sla : Option SlaSpec
  risk : Option RiskSpec
  autonomy : AutonomySpec
deriving DecidableEq

/-- An optional string property: omitted when absent. -/
def optStrV (k : String) : Option String → List (String × JsVal)
  | some s => [(k, .str s)]
  | none => []

/-- An optional `Date` property: omitted when absent. -/
def optDateV (k : String) : Option DateV → List (String × JsVal)
  | some d => [(k, .date d)]
  | none => []

/-- An optional string-array property: omitted when absent. -/
def optStrListV (k : String) : Option (List String) → List (String × JsVal)
  | some xs => [(k, .arr (xs.map .str))]
  | none => []

/-- The runtime object of a `Subtask`, fields in interface order. -/
def Subtask.toJsVal (s : Subtask) : JsVal :=
  .obj ([("id", .str s.id), ("title", .str s.title),
         ("status", .str s.status)] ++
        optStrV "assignee" s.assignee ++ optDateV "dueDate" s.dueDate ++
        optStrListV "insightCards" s.insightCards ++
        optStrV "narrativeContext" s.narrativeContext ++
        optStrListV "aiSignals" s.aiSignals ++ [("metadata", s.metadata)])

/-- The runtime object of a `Milestone`, fields in interface order. -/
def Milestone.toJsVal (m : Milestone) : JsVal :=
  .obj ([("id", .str m.id), ("name", .str m.name)] ++
        optStrV "description" m.description ++
        [("dueDate", .date m.dueDate), ("status", .str m.status),
         ("tasks", .arr (m.tasks.map .str))])

/-- The runtime object of a `Task`, fields in interface order. -/
def Task.toJsVal (t : Task) : JsVal :=
  .obj ([("id", .str t.id), ("title", .str t.title)] ++
        optStrV "description" t.description ++
        [("priority", .str t.priority), ("status", .str t.status)] ++
        optStrV "assignee" t.assignee ++ optDateV "dueDate" t.dueDate ++
        [("createdAt", .date t.createdAt), ("updatedAt", .date t.updatedAt),
         ("tags", .arr (t.tags.map .str))] ++
        optStrV "projectId" t.projectId ++
        optStrListV "dependencies" t.dependencies ++
        [("initiativeId", .str t.initiativeId)] ++
        optStrV "parentTaskId" t.parentTaskId ++
        [("subtasks", .arr (t.subtasks.map Subtask.toJsVal)),
         ("governanceState", .str t.governanceState),
         ("visualPriority", .num t.visualPriority),
         ("insightCards", .arr (t.insightCards.map .str)),
         ("narrativeContext", .str t.narrativeContext),
         ("aiSignals", .arr (t.aiSignals.map .str))] ++
        optStrListV "team" t.team ++
        (match t.milestones with
         | some ms => [("milestones", JsVal.arr (ms.map Milestone.toJsVal))]
         | none => []) ++
        (match t.metadata with
         | some m => [("metadata", m)]
         | none => []))

/-- The runtime object of an `Initiative`, fields in interface order. -/
def Initiative.toJsVal (i : Initiative) : JsVal :=
  .obj ([("id", .str i.id), ("name", .str i.name)] ++
        optStrV "description" i.description ++
        [("owner", .str i.owner), ("status", .str i.status),
         ("createdAt", .date i.createdAt), ("updatedAt", .date i.updatedAt),
         ("schemaVersion", .str i.schemaVersion),
         ("metadata", i.metadata)])

/-- The runtime object of an `sla` annotation. -/
def SlaSpec.toJsVal (s : SlaSpec) : JsVal :=
  .obj [("targetDate", .date s.targetDate),
        ("toleranceHours", .num s.toleranceHours)]

/-- The runtime object of a `risk` annotation. -/
def RiskSpec.toJsVal (r : RiskSpec) : JsVal :=
  .obj [("level", .str r.level), ("mitigationPlan", .str r.mitigationPlan),
        ("impactVector", .arr (r.impactVector.map .str))]

/-- The runtime object of an `autonomy` annotation. -/
def AutonomySpec.toJsVal (a : AutonomySpec) : JsVal :=
  .obj ([("requiresManualApproval", .bool a.requiresManualApproval)] ++
        optStrV "escalationContact" a.escalationContact)

/-- The runtime object of a `DependencyContract`, fields in interface
order. -/
def DependencyContract.toJsVal (c : DependencyContract) : JsVal :=
  .obj ([("from", .str c.fromId), ("to", .str c.toId),
         ("relationshipType", .str c.relationshipType.toStr)] ++
        (match c.sla with
         | some s => [("sla", s.toJsVal)]
         | none => []) ++
        (match c.risk with
         | some r => [("risk", r.toJsVal)]
         | none => []) ++
        [("autonomy", c.autonomy.toJsVal)])

/-- The JSON tree `JSON.stringify` serializes a `Task` to. -/
def Task.toJson (t : Task) : Json := t.toJsVal.serialize

/-- The JSON tree `JSON.stringify` serializes an `Initiative` to. -/
def Initiative.toJson (i : Initiative) : Json := i.toJsVal.serialize

/-- The JSON tree `JSON.stringify` serializes a `DependencyContract`
to. -/
def DependencyContract.toJson (c : DependencyContract) : Json :=
  c.toJsVal.serialize

/-! ## FilesystemManager (`src/utils/filesystem.ts`) -/

/-- `FilesystemConfig`. -/
structure FilesystemConfig where
  rootDir : String
  signingKey : String

/-- The root directory as a path. -/
def rootPath (cfg : FilesystemConfig) : Path := segsOf cfg.rootDir

/-- `join(this.config.rootDir, initiativeId)`. -/
def initiativeDirPath (cfg : FilesystemConfig) (initiativeId : String) : Path :=
  pathJoin (rootPath cfg) initiativeId

/-- `join(dir, 'manifest.json')`. -/
def manifestPath (cfg : FilesystemConfig) (initiativeId : String) : Path :=
  pathJoin (initiativeDirPath cfg initiativeId) "manifest.json"

/-- `join(dir, 'tasks')`. -/
def tasksDirPath (cfg : FilesystemConfig) (initiativeId : String) : Path :=
  pathJoin (initiativeDirPath cfg initiativeId) "tasks"

/-- `` join(dir, 'tasks', `${taskId}.json`) ``. -/
def taskFilePath (cfg : FilesystemConfig) (initiativeId taskId : String) : Path :=
  pathJoin (tasksDirPath cfg initiativeId) (taskId ++ ".json")

/-- `join(dir, 'dependencies.json')`. -/
def depsPath (cfg : FilesystemConfig) (initiativeId : String) : Path :=
  pathJoin (initiativeDirPath cfg initiativeId) "dependencies.json"

/-- Run `f` on the store if the previous step succeeded; keep the partial
store and error otherwise (a rejected promise aborts the `async` chain but
earlier filesystem effects persist). -/
def andThenE (r : Option String × St) (f : St → Option String × St) :
    Option String × St :=
  match r with
  | (some e, st) => (some e, st)
  | (none, st) => f st

/-- `FilesystemManager.ensureInitiativeDir` (the returned directory string
is recomputed by callers; directory modes are not modelled). -/
def ensureInitiativeDirD (cfg : FilesystemConfig) (st : St) (initiativeId : String) :
    Option String × St :=
  andThenE (mkdirp st (initiativeDirPath cfg initiativeId)) (fun st1 =>
    mkdirp st1 (tasksDirPath cfg initiativeId))

/-- `FilesystemManager.signFile`: read the content back and write the
sidecar holding the HMAC of its SHA-256 digest. -/
def signFileD (cfg : FilesystemConfig) (st : St) (p : Path) : Option String × St :=
  match readFileD st p with
  | .error e => (some e, st)
  | .ok content =>
      writeFileD st (sigPath p) (.hmacHex cfg.signingKey (.sha256Hex content))

/-- `FilesystemManager.verifySignature`: recompute the signature of the
current content and compare with the sidecar; any read failure gives
`false`. -/
def verifySignatureD (cfg : FilesystemConfig) (st : St) (p : Path) : Bool :=
  match readFileD st p, readFileD st (sigPath p) with
  | .ok content, .ok expectedSignature =>
      expectedSignature == FData.hmacHex cfg.signingKey (.sha256Hex content)
  | _, _ => false

/-- `FilesystemManager.writeInitiative`. -/
def writeInitiativeD (cfg : FilesystemConfig) (st : St) (i : Initiative) :
    Option String × St :=
  andThenE (ensureInitiativeDirD cfg st i.id) (fun st1 =>
    andThenE (writeFileD st1 (manifestPath cfg i.id) (.jsonText i.toJson 2)) (fun st2 =>
      signFileD cfg st2 (manifestPath cfg i.id)))

/-- `FilesystemManager.readInitiative`: read, verify, parse; `null` on any
failure. -/
def readInitiativeD (cfg : FilesystemConfig) (st : St) (initiativeId : String) :
    Option Json :=
  match readFileD st (manifestPath cfg initiativeId) with
  | .error _ => none
  | .ok manifest =>
      if verifySignatureD cfg st (manifestPath cfg initiativeId) then
        manifest.parseJson
      else none

/-- `FilesystemManager.writeTask`. -/
def writeTaskD (cfg : FilesystemConfig) (st : St) (t : Task) : Option String × St :=
  andThenE (ensureInitiativeDirD cfg st t.initiativeId) (fun st1 =>
    andThenE (writeFileD st1 (taskFilePath cfg t.initiativeId t.id)
        (.jsonText t.toJson 2)) (fun st2 =>
      signFileD cfg st2 (taskFilePath cfg t.initiativeId t.id)))

/-- `FilesystemManager.readTask`. -/
def readTaskD (cfg : FilesystemConfig) (st : St) (initiativeId taskId : String) :
    Option Json :=
  match readFileD st (taskFilePath cfg initiativeId taskId) with
  | .error _ => none
  | .ok taskData =>
      if verifySignatureD cfg st (taskFilePath cfg initiativeId taskId) then
        taskData.parseJson
      else none

/-- `FilesystemManager.writeDependencies`. -/
def writeDependenciesD (cfg : FilesystemConfig) (st : St) (initiativeId : String)
    (dependencies : List DependencyContract) : Option String × St :=
  andThenE (ensureInitiativeDirD cfg st initiativeId) (fun st1 =>
    andThenE (writeFileD st1 (depsPath cfg initiativeId)
        (.jsonText (.arr (dependencies.map DependencyContract.toJson)) 2)) (fun st2 =>
      signFileD cfg st2 (depsPath cfg initiativeId)))

/-- `FilesystemManager.readDependencies`: like `readTask`, but any failure
yields the empty array. -/
def readDependenciesD (cfg : FilesystemConfig) (st : St) (initiativeId : String) :
    Json :=
  match readFileD st (depsPath cfg initiativeId) with
  | .error _ => .arr []
  | .ok depsData =>
      if verifySignatureD cfg st (depsPath cfg initiativeId) then
        match depsData.parseJson with
        | some v => v
        | none => .arr []
      else .arr []

namespace IntegrityManager

/-- `IntegrityManager.signData`: HMAC (under the construction-time key) of
the SHA-256 digest of the content. -/
def signData (signingKey : String) (data : FData) : FData :=
  .hmacHex signingKey (.sha256Hex data)

/-- `IntegrityManager.verifySignature`: recompute and compare for exact
equality.  Total — the JavaScript body cannot throw on any string input. -/
def verifySignatureI (signingKey : String) (data signature : FData) : Bool :=
  signData signingKey data == signature

/-- `IntegrityManager.verifyFileIntegrity`: read content and sidecar and
verify; any failure (including missing files) yields `false`. -/
def verifyFileIntegrity (signingKey : String) (st : St) (p : Path) : Bool :=
  match readFileD st p, readFileD st (sigPath p) with
  | .ok content, .ok expectedSignature =>
      verifySignatureI signingKey content expectedSignature
  | _, _ => false

end IntegrityManager

/-! ## JournalManager (`src/utils/journal.ts`) -/

/-- The caller-supplied part of a journal entry
(`Omit<JournalEntry, 'id' | 'timestamp'>`). -/
structure JournalEntryInput where
  initiativeId : String
  operation : String
  payload : Json
  status : String
  requestId : String
deriving DecidableEq

/-- The serialized fields of the caller-supplied part, in interface order. -/
def JournalEntryInput.fieldsJson (e : JournalEntryInput) : List (String × Json) :=
  [("initiativeId", .str e.initiativeId), ("operation", .str e.operation),
   ("payload", e.payload), ("status", .str e.status),
   ("requestId", .str e.requestId)]

/-- `{ id: entryId, timestamp: new Date().toISOString(), ...entry }`: the
full journal entry; `entryId` models the fresh `uuidv4()` and `timestamp`
the clock reading. -/
def journalFullEntry (entryId timestamp : String) (e : JournalEntryInput) : Json :=
  .obj (("id", .str entryId) :: ("timestamp", .str timestamp) :: e.fieldsJson)

/-- `join(this.config.rootDir, initiativeId, 'journal.jsonl')`. -/
def journalPath (rootDir initiativeId : String) : Path :=
  pathJoin (pathJoin (segsOf rootDir) initiativeId) "journal.jsonl"

/-- `JournalManager.append`: ensure the initiative directory, then append
the entry's single serialized line; returns the entry id to the caller. -/
def appendD (rootDir : String) (st : St) (initiativeId entryId timestamp : String)
    (entry : JournalEntryInput) : Option String × St :=
  andThenE (mkdirp st (pathJoin (segsOf rootDir) initiativeId)) (fun st1 =>
    appendLineD st1 (journalPath rootDir initiativeId)
      (.ok (journalFullEntry entryId timestamp entry)))

/-- `line.trim()` truthiness filter applied during replay and completion. -/
def lineKept : JLine → Bool
  | .ok _ => true
  | .bad s => hasNonWs s

/-- `JSON.parse(line)` for one kept line. -/
def parseLine : JLine → Option Json
  | .ok v => some v
  | .bad _ => none

/-- `JournalManager.replay`: read the whole journal, split into lines, drop
whitespace-only lines, parse each line.  A `JSON.parse` failure on any kept
line throws inside `.map`, and the surrounding catch returns `[]` — so one
malformed line discards every entry.  A journal file only ever holds
line-structured content (see `appendLineD`), and a missing file reads as
`[]`. -/
def replayD (rootDir : String) (st : St) (initiativeId : String) : List Json :=
  match readFileD st (journalPath rootDir initiativeId) with
  | .error _ => []
  | .ok (.jsonl ls) =>
      let kept := ls.filter lineKept
      if kept.all (fun l => (parseLine l).isSome) then kept.filterMap parseLine
      else []
  | .ok _ => []

/-- `JournalManager.markComplete`: read the journal (a missing file
rejects), drop whitespace-only lines, parse every kept line (a parse
failure rejects before anything is written), replace the status of the
matching entry, and rewrite the whole file.  The store is only modified by
the final write. -/
def markCompleteD (rootDir : String) (st : St) (initiativeId entryId : String) :
    Option String × St :=
  match readFileD st (journalPath rootDir initiativeId) with
  | .error e => (some e, st)
  | .ok (.jsonl ls) =>
      let kept := ls.filter lineKept
      if kept.all (fun l => (parseLine l).isSome) then
        let updated := kept.map (fun l =>
          match l with
          | .ok v => if v.idIs entryId then JLine.ok v.setStatusCompleted else .ok v
          | .bad s => .bad s)
        writeFileD st (journalPath rootDir initiativeId) (.jsonl updated)
      else (some "SyntaxError: JSON.parse", st)
  | .ok _ => (some "journal content is only ever line-structured", st)

/-! ## DependencyManager (`src/tools` dependency module) -/

/-- The `Map<string, DependencyContract[]>` keyed by `` `${from}-${to}` ``,
as an association list in key-insertion order (JavaScript `Map` iteration
order). -/
abbrev ContractMap := List (String × List DependencyContract)

/-- `` `${contract.from}-${contract.to}` ``. -/
def contractKey (c : DependencyContract) : String := c.fromId ++ "-" ++ c.toId

/-- Append `c` to the list at key `k`, keeping the key's position; insert
the key at the end if absent (JavaScript `Map.set` semantics). -/
def contractMapAdd (m : ContractMap) (k : String) (c : DependencyContract) :
    ContractMap :=
  match m with
  | [] => [(k, [c])]
  | (k', cs) :: rest =>
      if k' == k then (k', cs ++ [c]) :: rest else (k', cs) :: contractMapAdd rest k c

/-- `DependencyManager.loadContracts`: clear and regroup. -/
def loadContracts (contracts : List DependencyContract) : ContractMap :=
  contracts.foldl (fun m c => contractMapAdd m (contractKey c) c) []

/-- The adjacency list `Map<string, string[]>`, as an association list in
key-insertion order. -/
abbrev Graph := List (String × List String)

/-- `if (!graph.has(from)) graph.set(from, []); graph.get(from).push(to)`. -/
def graphAdd (g : Graph) (a b : String) : Graph :=
  match g with
  | [] => [(a, [b])]
  | (k, ns) :: rest =>
      if k == a then (k, ns ++ [b]) :: rest else (k, ns) :: graphAdd rest a b

/-- Build the adjacency list from every loaded contract, in map order. -/
def buildGraph (m : ContractMap) : Graph :=
  m.foldl (fun g kv => kv.2.foldl (fun g c => graphAdd g c.fromId c.toId) g) []

/-- `graph.get(node) || []`. -/
def neighborsOf (g : Graph) (node : String) : List String :=
  match g.find? (fun kv => kv.1 == node) with
  | some kv => kv.2
  | none => []

/-- The mutable state shared by all recursive `dfs` calls in
`DependencyManager.detectCycles`: the `visited` set, the active
`recursionStack`, and the accumulated cycles. -/
structure DfsState where
  visited : List String
  stack : List String
  cycles : List (List String)

/-- The recursive `dfs(node, path)` of `detectCycles`.  `path` is copied at
each call (`[...path]`); `visited`, `recursionStack` and `cycles` are
shared.  Recursion is bounded by fuel: every frame that recurses first
marks an unvisited node visited, so nesting never exceeds the number of
nodes with outgoing edges and the fuel supplied by `detectCyclesD` is never
exhausted. -/
def dfsD (g : Graph) : Nat → String → List String → DfsState → DfsState
  | 0, _, _, s => s
  | fuel + 1, node, path, s =>
      if node ∈ s.stack then
        { s with cycles := s.cycles ++ [path.drop (path.indexOf node)] }
      else if node ∈ s.visited then s
      else
        let s := { s with visited := s.visited ++ [node], stack := s.stack ++ [node] }
        let path := path ++ [node]
        let s := (neighborsOf g node).foldl (fun s n => dfsD g fuel n path s) s
        { s with stack := s.stack.erase node }

/-- `DependencyManager.detectCycles`. -/
def detectCyclesD (m : ContractMap) (taskIds : List String) : List (List String) :=
  let g := buildGraph m
  let s := taskIds.foldl (fun s tid =>
    if tid ∈ s.visited then s else dfsD g (g.length + 1) tid [] s)
    ⟨[], [], []⟩
  s.cycles

/-- The caller-supplied task shape of `validateChronologicalOrder`
(`{ id, dueDate?, createdAt }`); dates are modelled as integer instants,
since JavaScript `<` on `Date`s compares the underlying epoch number. -/
structure TaskDates where
  id : String
  dueDate : Option Int
  createdAt : Int
deriving DecidableEq

/-- `task.dueDate || task.createdAt` (a `Date` object is always truthy). -/
def effectiveDate (t : TaskDates) : Int := t.dueDate.getD t.createdAt

/-- The violation message pushed by `validateChronologicalOrder`. -/
def chronoMsg (c : DependencyContract) : String :=
  "Task " ++ c.toId ++ " has due date before dependency " ++ c.fromId

/-- `DependencyManager.validateChronologicalOrder`: for every loaded
contract (in map order), look up both endpoint tasks; skip the contract if
either is absent; flag a violation when the `to` task's effective date
strictly precedes the `from` task's. -/
def validateChronologicalOrderD (m : ContractMap) (tasks : List TaskDates) :
    List String :=
  m.foldl (fun vs kv => kv.2.foldl (fun vs c =>
    match tasks.find? (fun t => t.id == c.fromId),
          tasks.find? (fun t => t.id == c.toId) with
    | some fromTask, some toTask =>
        if effectiveDate toTask < effectiveDate fromTask then vs ++ [chronoMsg c]
        else vs
    | _, _ => vs) vs) []

/-! ## Derived and specification-side definitions -/

/-- All loaded contracts in iteration order (key-insertion order, then
per-key insertion order): the order `validateChronologicalOrder` and
`detectCycles` traverse them in. -/
def contractsInOrder (m : ContractMap) : List DependencyContract :=
  (m.map Prod.snd).flatten

/-- Specification-side reading of one `validateChronologicalOrder` step:
the violation a contract contributes, if any — both endpoints must be
present in the task list and the `to` task's effective date must strictly
precede the `from` task's. -/
def chronoViolation? (tasks : List TaskDates) (c : DependencyContract) :
    Option String :=
  match tasks.find? (fun t => t.id == c.fromId),
        tasks.find? (fun t => t.id == c.toId) with
  | some fromTask, some toTask =>
      if effectiveDate toTask < effectiveDate fromTask then some (chronoMsg c)
      else none
  | _, _ => none

/-! ## Concrete example inputs (used by closed instances below) -/

/-- A concrete configuration. -/
def exCfg : FilesystemConfig := ⟨"root", "key"⟩

/-- A concrete initiative, with `Date`-valued timestamps. -/
def exInitiative : Initiative :=
  ⟨"I", "Initiative I", none, "owner", "active",
   ⟨"2024-01-01T00:00:00.000Z"⟩, ⟨"2024-01-02T00:00:00.000Z"⟩, "1.1.0",
   .obj []⟩

/-- A concrete task under initiative `X`, with `Date`-valued timestamps. -/
def exTask : Task :=
  ⟨"t1", "Task one", none, "high", "pending", none, none,
   ⟨"2024-01-01T00:00:00.000Z"⟩, ⟨"2024-01-02T00:00:00.000Z"⟩, ["test"],
   none, some ["d1"], "X", none, [], "draft", 5, [], "", [], none, none,
   none⟩

/-- A concrete parsed journal entry. -/
def exEntryV : Json :=
  .obj [("id", .str "e1"), ("status", .str "pending")]

/-- A store whose journal for initiative `A` holds one well-formed entry
followed by one malformed (non-whitespace, unparseable) line. -/
def exStMalformed : St :=
  [(["root"], .dir), (["root", "A"], .dir),
   (["root", "A", "journal.jsonl"], .file (.jsonl [.ok exEntryV, .bad "oops"]))]

/-- A store whose journal for initiative `A` holds one well-formed entry
followed by one whitespace-only (blank) line. -/
def exStBlank : St :=
  [(["root"], .dir), (["root", "A"], .dir),
   (["root", "A", "journal.jsonl"],
    .file (.jsonl [.ok exEntryV, .bad "   "]))]

/-- A store whose journal for initiative `A` holds exactly one well-formed
entry. -/
def exStGood : St :=
  [(["root"], .dir), (["root", "A"], .dir),
   (["root", "A", "journal.jsonl"], .file (.jsonl [.ok exEntryV]))]

/-- A concrete journal entry input. -/
def exEntryInput : JournalEntryInput :=
  ⟨"A", "writeTask", .obj [("taskId", .str "t1")], "pending", "req-1"⟩

/-! ## Store lemmas -/

theorem findE_setE_self (st : St) (p : Path) (e : Entry) :
    findE (setE st p e) p = some e := by
  induction st with
  | nil => simp [setE, findE]
  | cons hd rest ih =>
      obtain ⟨q, f⟩ := hd
      by_cases h : q = p
      · simp [setE, h, findE]
      · simp [setE, findE, h, ih]

theorem findE_setE_ne (st : St) (p p' : Path) (e : Entry) (h : p' ≠ p) :
    findE (setE st p e) p' = findE st p' := by
  induction st with
  | nil => simp [setE, findE, Ne.symm h]
  | cons hd rest ih =>
      obtain ⟨q, f⟩ := hd
      by_cases hq : q = p
      · subst hq
        simp [setE, findE, Ne.symm h]
      · by_cases hq' : q = p'
        · simp [setE, findE, hq, hq', h]
        · simp [setE, findE, hq, hq', ih]

theorem andThenE_none {r : Option String × St} {f : St → Option String × St}
    {st' : St} (h : andThenE r f = (none, st')) :
    ∃ stm, r = (none, stm) ∧ f stm = (none, st') := by
  obtain ⟨err, stm⟩ := r
  cases err with
  | none => exact ⟨stm, rfl, h⟩
  | some e => simp [andThenE] at h

theorem writeFileD_none {st st' : St} {p : Path} {c : FData}
    (h : writeFileD st p c = (none, st')) :
    st' = setE st p (.file c) ∧ findE st p.dropLast = some .dir ∧
      findE st p ≠ some .dir := by
  unfold writeFileD at h
  cases hp : findE st p with
  | some e =>
      cases e with
      | dir => simp [hp] at h
      | file c0 =>
          simp only [hp] at h
          cases hpar : findE st p.dropLast with
          | none => simp [hpar] at h
          | some e' =>
              cases e' with
              | dir => simp_all
              | file c1 => simp [hpar] at h
  | none =>
      simp only [hp] at h
      cases hpar : findE st p.dropLast with
      | none => simp [hpar] at h
      | some e' =>
          cases e' with
          | dir => simp_all
          | file c1 => simp [hpar] at h

theorem signFileD_none {cfg : FilesystemConfig} {st st' : St} {p : Path}
    (h : signFileD cfg st p = (none, st')) :
    ∃ c, readFileD st p = .ok c ∧
      st' = setE st (sigPath p) (.file (.hmacHex cfg.signingKey (.sha256Hex c))) := by
  unfold signFileD at h
  cases hr : readFileD st p with
  | error e => simp [hr] at h
  | ok c =>
      simp only [hr] at h
      exact ⟨c, rfl, (writeFileD_none h).1⟩

theorem appendLineD_none {st st' : St} {p : Path} {l : JLine}
    (h : appendLineD st p l = (none, st')) :
    (∃ ls, findE st p = some (.file (.jsonl ls)) ∧
        st' = setE st p (.file (.jsonl (ls ++ [l])))) ∨
      (findE st p = none ∧ findE st p.dropLast = some .dir ∧
        st' = setE st p (.file (.jsonl [l]))) := by
  unfold appendLineD at h
  cases hp : findE st p with
  | some e =>
      cases e with
      | dir => simp [hp] at h
      | file c =>
          cases c with
          | jsonl ls =>
              simp only [hp] at h
              exact .inl ⟨ls, rfl, by simpa using h.symm⟩
          | jsonText v i => simp [hp] at h
          | raw s => simp [hp] at h
          | sha256Hex d => simp [hp] at h
          | hmacHex k d => simp [hp] at h
  | none =>
      simp only [hp] at h
      cases hpar : findE st p.dropLast with
      | none => simp [hpar] at h
      | some e' =>
          cases e' with
          | dir =>
              simp only [hpar] at h
              exact .inr ⟨rfl, rfl, by simpa using h.symm⟩
          | file c1 => simp [hpar] at h

theorem mkdirStep_error (e : String) (st : St) (q : Path) :
    mkdirStep (some e, st) q = (some e, st) := rfl

theorem mkdirFold_error (qs : List Path) (e : String) (st : St) :
    qs.foldl mkdirStep (some e, st) = (some e, st) := by
  induction qs with
  | nil => rfl
  | cons q qs ih => simpa [mkdirStep_error] using ih

theorem mkdirStep_snd (a : Option String × St) (q : Path) :
    (mkdirStep a q).2 = a.2 ∨
      ((mkdirStep a q).2 = setE a.2 q .dir ∧ findE a.2 q = none) := by
  obtain ⟨err, st⟩ := a
  cases err with
  | some e => left; rfl
  | none =>
      cases hq : findE st q with
      | none => right; exact ⟨by simp [mkdirStep, hq], rfl⟩
      | some f => cases f with
        | dir => left; simp [mkdirStep, hq]
        | file c => left; simp [mkdirStep, hq]

theorem mkdirFold_findE_some {qs : List Path} {a : Option String × St} {q : Path}
    {e : Entry} (h : findE a.2 q = some e) :
    findE (qs.foldl mkdirStep a).2 q = some e := by
  induction qs generalizing a with
  | nil => exact h
  | cons q1 qs ih =>
      apply ih
      rcases mkdirStep_snd a q1 with hs | ⟨hs, hn⟩
      · rw [hs]; exact h
      · rw [hs]
        have hne : q ≠ q1 := by
          intro he
          rw [he, hn] at h
          exact Option.noConfusion h
        rw [findE_setE_ne _ _ _ _ hne]
        exact h

theorem mkdirFold_findE_ne {qs : List Path} {a : Option String × St} {q : Path}
    (h : ∀ qq ∈ qs, qq ≠ q) :
    findE (qs.foldl mkdirStep a).2 q = findE a.2 q := by
  induction qs generalizing a with
  | nil => rfl
  | cons q1 qs ih =>
      rw [List.foldl_cons, ih (fun qq hq => h qq (List.mem_cons_of_mem _ hq))]
      rcases mkdirStep_snd a q1 with hs | ⟨hs, _⟩
      · rw [hs]
      · rw [hs, findE_setE_ne _ _ _ _ (Ne.symm (h q1 (List.mem_cons_self _ _)))]

theorem mkdirFold_ok_dir {qs : List Path} {st st' : St}
    (h : qs.foldl mkdirStep (none, st) = (none, st')) :
    ∀ q ∈ qs, findE st' q = some .dir := by
  induction qs generalizing st with
  | nil => intro q hq; exact absurd hq (List.not_mem_nil q)
  | cons q1 qs ih =>
      intro q hq
      rw [List.foldl_cons] at h
      have hstep : ∃ st1, mkdirStep (none, st) q1 = (none, st1) ∧
          findE st1 q1 = some .dir := by
        cases hq1 : findE st q1 with
        | none =>
            exact ⟨setE st q1 .dir, by simp [mkdirStep, hq1], findE_setE_self _ _ _⟩
        | some f =>
            cases f with
            | dir => exact ⟨st, by simp [mkdirStep, hq1], hq1⟩
            | file c =>
                rw [show (qs.foldl mkdirStep
                    (mkdirStep (none, st) q1)) =
                    qs.foldl mkdirStep (some "ENOTDIR", st) from by
                  simp [mkdirStep, hq1]] at h
                rw [mkdirFold_error] at h
                exact Option.noConfusion (congrArg Prod.fst h)
      obtain ⟨st1, hs1, hd1⟩ := hstep
      rw [hs1] at h
      rcases List.mem_cons.1 hq with rfl | hmem
      · have hpres := @mkdirFold_findE_some qs (none, st1) q .dir hd1
        rw [h] at hpres
        exact hpres
      · exact ih h q hmem

theorem mem_pathPrefixes {p q : Path} :
    q ∈ pathPrefixes p ↔ ∃ k, k < p.length ∧ q = p.take (k + 1) := by
  simp [pathPrefixes, List.mem_map, List.mem_range, eq_comm]

theorem self_mem_pathPrefixes {p : Path} (h : p ≠ []) : p ∈ pathPrefixes p := by
  rw [mem_pathPrefixes]
  have hl : 0 < p.length := List.length_pos.2 h
  exact ⟨p.length - 1, by omega, by rw [Nat.sub_add_cancel hl, List.take_length]⟩

theorem length_of_mem_pathPrefixes {p q : Path} (h : q ∈ pathPrefixes p) :
    1 ≤ q.length ∧ q.length ≤ p.length := by
  rw [mem_pathPrefixes] at h
  obtain ⟨k, hk, rfl⟩ := h
  simp [List.length_take]
  omega

theorem mkdirp_findE_some {st : St} {p q : Path} {e : Entry}
    (h : findE st q = some e) : findE (mkdirp st p).2 q = some e :=
  mkdirFold_findE_some h

theorem mkdirp_findE_ne {st : St} {p q : Path}
    (h : ∀ qq ∈ pathPrefixes p, qq ≠ q) :
    findE (mkdirp st p).2 q = findE st q :=
  mkdirFold_findE_ne h

theorem mkdirp_ok_dir {st st' : St} {p : Path} (h : mkdirp st p = (none, st'))
    (hp : p ≠ []) : findE st' p = some .dir :=
  mkdirFold_ok_dir h p (self_mem_pathPrefixes hp)

/-! ## Path lemmas -/

theorem splitSlash_ne_nil (cs : List Char) : splitSlash cs ≠ [] := by
  cases cs with
  | nil => simp [splitSlash]
  | cons c cs =>
      simp only [splitSlash]
      cases h : splitSlash cs with
      | nil => simp
      | cons seg rest =>
          by_cases hc : c = '/' <;> simp [hc]

theorem segsOf_ne_nil (s : String) : segsOf s ≠ [] := by
  simp only [segsOf, ne_eq, List.map_eq_nil_iff]
  exact splitSlash_ne_nil s.data

theorem pathJoin_ne_nil (p : Path) (s : String) : pathJoin p s ≠ [] := by
  simp only [pathJoin, ne_eq, List.append_eq_nil]
  exact fun h => segsOf_ne_nil s h.2

theorem sigPath_concat (xs : Path) (a : String) :
    sigPath (xs ++ [a]) = xs ++ [a ++ ".sig"] := by
  simp [sigPath, List.getLast?_concat, List.dropLast_concat]

theorem append_sig_ne (a : String) : a ++ ".sig" ≠ a := by
  intro h
  have hl := congrArg String.length h
  rw [String.length_append] at hl
  have h4 : ".sig".length = 4 := by decide
  omega

theorem sigPath_ne_self {p : Path} (hp : p ≠ []) : sigPath p ≠ p := by
  rcases List.eq_nil_or_concat p with rfl | ⟨xs, a, rfl⟩
  · exact absurd rfl hp
  · rw [List.concat_eq_append, sigPath_concat]
    intro h
    exact append_sig_ne a (List.singleton_injective (List.append_cancel_left h))

/-! ## Write-then-read lemmas -/

/-- After a successful `writeFile` + `signFile` pair on `p`, the store holds
the content, the matching sidecar, and the signature verifies. -/
theorem written_signed {cfg : FilesystemConfig} {st1 st2 st3 : St} {p : Path}
    {c : FData} (hp : p ≠ [])
    (hw : writeFileD st1 p c = (none, st2))
    (hs : signFileD cfg st2 p = (none, st3)) :
    findE st3 p = some (.file c) ∧
      findE st3 (sigPath p) =
        some (.file (.hmacHex cfg.signingKey (.sha256Hex c))) ∧
      verifySignatureD cfg st3 p = true := by
  have hst2 : st2 = setE st1 p (.file c) := (writeFileD_none hw).1
  have hfind2 : findE st2 p = some (.file c) := by
    rw [hst2]; exact findE_setE_self _ _ _
  obtain ⟨c0, hr, hst3⟩ := signFileD_none hs
  rw [readFileD, hfind2] at hr
  have hc0 : c0 = c := by injection hr with h; exact h.symm
  subst hc0
  have hsig : findE st3 (sigPath p) =
      some (.file (.hmacHex cfg.signingKey (.sha256Hex c0))) := by
    rw [hst3]; exact findE_setE_self _ _ _
  have hcontent : findE st3 p = some (.file c0) := by
    rw [hst3, findE_setE_ne _ _ _ _ (Ne.symm (sigPath_ne_self hp))]
    exact hfind2
  refine ⟨hcontent, hsig, ?_⟩
  rw [verifySignatureD, readFileD, hcontent, readFileD, hsig]
  simp

/-! ## Serialization lemmas -/

mutual

/-- Reading a serialized runtime value back as a runtime value yields the
original with every `Date` replaced by its ISO string: the value-level
content of a `stringify`/`parse` round trip. -/
theorem toVal_serialize : ∀ v : JsVal, v.serialize.toVal = v.strDates
  | .null => rfl
  | .bool b => rfl
  | .num n => rfl
  | .str s => rfl
  | .date d => rfl
  | .arr xs => by
      rw [JsVal.serialize, Json.toVal, JsVal.strDates,
        toValList_serializeList xs]
  | .obj fs => by
      rw [JsVal.serialize, Json.toVal, JsVal.strDates,
        toValFields_serializeFields fs]

theorem toValList_serializeList : ∀ xs : List JsVal,
    Json.toValList (JsVal.serializeList xs) = JsVal.strDatesList xs
  | [] => rfl
  | v :: vs => by
      rw [JsVal.serializeList, Json.toValList, JsVal.strDatesList,
        toVal_serialize v, toValList_serializeList vs]

theorem toValFields_serializeFields : ∀ fs : List (String × JsVal),
    Json.toValFields (JsVal.serializeFields fs) = JsVal.strDatesFields fs
  | [] => rfl
  | (k, v) :: fs => by
      rw [JsVal.serializeFields, Json.toValFields, JsVal.strDatesFields,
        toVal_serialize v, toValFields_serializeFields fs]

end

/-- `serializeList` is the elementwise serialization. -/
theorem serializeList_eq_map : ∀ xs : List JsVal,
    JsVal.serializeList xs = xs.map JsVal.serialize
  | [] => rfl
  | v :: vs => by rw [JsVal.serializeList, List.map_cons, serializeList_eq_map vs]

/-! ## Chain destructuring -/

theorem chain3_none {a : Option String × St} {f g : St → Option String × St}
    {st' : St} (h : andThenE a (fun s1 => andThenE (f s1) g) = (none, st')) :
    ∃ s1 s2, a = (none, s1) ∧ f s1 = (none, s2) ∧ g s2 = (none, st') := by
  obtain ⟨s1, ha, h2⟩ := andThenE_none h
  obtain ⟨s2, hf, hg⟩ := andThenE_none h2
  exact ⟨s1, s2, ha, hf, hg⟩

/-! ## Claim theorems -/

/-- C8: `IntegrityManager`'s verification is total (the model is a total
function: the JavaScript body performs no throwing operation on any string
input) and returns `true` exactly when the supplied signature equals the
value `signData` produces for that content — the HMAC, under the
construction-time key, of the content's SHA-256 digest; on every other
input, including malformed signatures, it returns `false`.  The same holds
for the file-based variant, where any read failure also yields `false`. -/
theorem c8_verify_exact (signingKey : String) (data sigv : FData) (st : St)
    (p : Path) :
    (IntegrityManager.verifySignatureI signingKey data sigv = true ↔
      sigv = IntegrityManager.signData signingKey data) ∧
    (IntegrityManager.verifyFileIntegrity signingKey st p = true ↔
      ∃ content, readFileD st p = .ok content ∧
        readFileD st (sigPath p) =
          .ok (IntegrityManager.signData signingKey content)) := by
  constructor
  · rw [IntegrityManager.verifySignatureI, beq_iff_eq]
    exact eq_comm
  · rw [IntegrityManager.verifyFileIntegrity]
    cases hc : readFileD st p with
    | error e => simp [hc]
    | ok content =>
        cases hs : readFileD st (sigPath p) with
        | error e => simp [hc, hs]
        | ok sigv2 =>
            simp only [hc, hs]
            rw [IntegrityManager.verifySignatureI, beq_iff_eq]
            constructor
            · intro h
              exact ⟨content, rfl, congrArg Except.ok h.symm⟩
            · rintro ⟨c2, hc2, hs2⟩
              injection hc2 with hc2
              injection hs2 with hs2
              rw [← hc2] at hs2
              exact hs2.symm

/-- C4: with loaded contracts forming the edges A→B, B→C, C→A,
`detectCycles(["A","B","C"])` returns exactly one cycle, `["A","B","C"]`,
which contains all three ids; with only the edges A→B, B→C it returns no
cycle. -/
theorem c4_cycle_detection :
    detectCyclesD (loadContracts
        [⟨"A", "B", .blocks, none, none, ⟨false, none⟩⟩, ⟨"B", "C", .blocks, none, none, ⟨false, none⟩⟩,
         ⟨"C", "A", .blocks, none, none, ⟨false, none⟩⟩]) ["A", "B", "C"] = [["A", "B", "C"]] ∧
    detectCyclesD (loadContracts
        [⟨"A", "B", .blocks, none, none, ⟨false, none⟩⟩, ⟨"B", "C", .blocks, none, none, ⟨false, none⟩⟩])
      ["A", "B", "C"] = [] :=
  ⟨by decide, by decide⟩

/-- C1 fails on the code: `JSON.parse` does not revive `Date` objects, so
whenever the input has a `Date`-valued field the value read back is not
equal to the original input object.  The initiative written here has
`Date` timestamps; the read succeeds and returns exactly the serialized
tree, whose `createdAt`/`updatedAt` are ISO strings — as a runtime value
it differs from the input object. -/
theorem c1_roundtrip_counterexample :
    readInitiativeD exCfg (writeInitiativeD exCfg [] exInitiative).2 "I" =
      some exInitiative.toJson ∧
    exInitiative.toJson.toVal ≠ Initiative.toJsVal exInitiative :=
  ⟨rfl, by decide⟩

/-- C1 amended: writing an `Initiative`, `Task`, or `DependencyContract`
list and reading it back (ignoring the generated sidecar signature files)
yields the serialization of the input — as a runtime value, exactly the
original input object with every `Date`-valued field replaced by its ISO
string rendering (`JSON.parse` does not revive `Date`s); no other field is
altered.  The write-success hypotheses say the corresponding `write…` call
resolved rather than rejecting. -/
theorem c1_write_read_roundtrip (cfg : FilesystemConfig) (st : St)
    (i : Initiative) (t : Task) (iid : String) (ds : List DependencyContract) :
    (∀ st', writeInitiativeD cfg st i = (none, st') →
      readInitiativeD cfg st' i.id = some i.toJson) ∧
    i.toJson.toVal = (Initiative.toJsVal i).strDates ∧
    (∀ st', writeTaskD cfg st t = (none, st') →
      readTaskD cfg st' t.initiativeId t.id = some t.toJson) ∧
    t.toJson.toVal = (Task.toJsVal t).strDates ∧
    (∀ st', writeDependenciesD cfg st iid ds = (none, st') →
      readDependenciesD cfg st' iid =
        .arr (ds.map DependencyContract.toJson)) ∧
    (Json.arr (ds.map DependencyContract.toJson)).toVal =
      (JsVal.arr (ds.map DependencyContract.toJsVal)).strDates := by
  refine ⟨?_, toVal_serialize (Initiative.toJsVal i), ?_,
    toVal_serialize (Task.toJsVal t), ?_, ?_⟩
  · intro st' hww
    rw [writeInitiativeD] at hww
    obtain ⟨s1, s2, hens, hw, hs⟩ := chain3_none hww
    obtain ⟨hc, hsig, hv⟩ :=
      written_signed (pathJoin_ne_nil _ _) hw hs
    simp only [readInitiativeD, readFileD, manifestPath, hc, hv, if_true]
    rfl
  · intro st' hww
    rw [writeTaskD] at hww
    obtain ⟨s1, s2, hens, hw, hs⟩ := chain3_none hww
    obtain ⟨hc, hsig, hv⟩ :=
      written_signed (pathJoin_ne_nil _ _) hw hs
    simp only [readTaskD, readFileD, taskFilePath, hc, hv, if_true]
    rfl
  · intro st' hww
    rw [writeDependenciesD] at hww
    obtain ⟨s1, s2, hens, hw, hs⟩ := chain3_none hww
    obtain ⟨hc, hsig, hv⟩ :=
      written_signed (pathJoin_ne_nil _ _) hw hs
    simp only [readDependenciesD, readFileD, depsPath, hc, hv, if_true]
    rfl
  · have harr : Json.arr (ds.map DependencyContract.toJson) =
        (JsVal.arr (ds.map DependencyContract.toJsVal)).serialize := by
      rw [JsVal.serialize, serializeList_eq_map, List.map_map]
      rfl
    rw [harr]
    exact toVal_serialize _

/-- Closed instance of the amended C1: writing and reading back a task
from the empty store returns the serialized object, whose runtime value is
the original task with its `Date` fields rendered as ISO strings. -/
theorem c1_write_read_roundtrip_witness :
    readInitiativeD exCfg (writeInitiativeD exCfg [] exInitiative).2 "I" =
      some exInitiative.toJson ∧
    readTaskD exCfg (writeTaskD exCfg [] exTask).2 "X" "t1" =
      some exTask.toJson ∧
    exTask.toJson.toVal = (Task.toJsVal exTask).strDates := by
  refine ⟨?_, ?_,
    (c1_write_read_roundtrip exCfg [] exInitiative exTask "X" []).2.2.2.1⟩
  · exact (c1_write_read_roundtrip exCfg [] exInitiative exTask "X" []).1 _ rfl
  · exact (c1_write_read_roundtrip exCfg [] exInitiative exTask "X" []).2.2.1 _ rfl

/-- One `validateChronologicalOrder` loop step appends exactly the
violation `chronoViolation?` assigns to the contract (if any). -/
theorem chronoStep_toList (tasks : List TaskDates) (vs : List String)
    (c : DependencyContract) :
    (match tasks.find? (fun t => t.id == c.fromId),
           tasks.find? (fun t => t.id == c.toId) with
     | some fromTask, some toTask =>
         if effectiveDate toTask < effectiveDate fromTask then vs ++ [chronoMsg c]
         else vs
     | _, _ => vs) = vs ++ (chronoViolation? tasks c).toList := by
  rw [chronoViolation?]
  cases tasks.find? (fun t => t.id == c.fromId) <;>
    cases tasks.find? (fun t => t.id == c.toId) <;> simp
  split <;> simp

/-- The inner contract-list fold accumulates the filtered violations. -/
theorem chronoFold (tasks : List TaskDates) (cs : List DependencyContract)
    (vs : List String) :
    cs.foldl (fun vs c =>
      match tasks.find? (fun t => t.id == c.fromId),
            tasks.find? (fun t => t.id == c.toId) with
      | some fromTask, some toTask =>
          if effectiveDate toTask < effectiveDate fromTask then vs ++ [chronoMsg c]
          else vs
      | _, _ => vs) vs = vs ++ cs.filterMap (chronoViolation? tasks) := by
  induction cs generalizing vs with
  | nil => simp
  | cons c cs ih =>
      rw [List.foldl_cons, chronoStep_toList, ih, List.filterMap_cons]
      cases chronoViolation? tasks c <;> simp

/-- The outer fold over the contract map accumulates the filtered
violations of all contracts in iteration order. -/
theorem chronoOuter (tasks : List TaskDates) (m : ContractMap)
    (vs : List String) :
    m.foldl (fun vs kv => kv.2.foldl (fun vs c =>
      match tasks.find? (fun t => t.id == c.fromId),
            tasks.find? (fun t => t.id == c.toId) with
      | some fromTask, some toTask =>
          if effectiveDate toTask < effectiveDate fromTask then vs ++ [chronoMsg c]
          else vs
      | _, _ => vs) vs) vs =
      vs ++ (contractsInOrder m).filterMap (chronoViolation? tasks) := by
  induction m generalizing vs with
  | nil => simp [contractsInOrder]
  | cons kv m ih =>
      rw [List.foldl_cons, chronoFold, ih]
      simp [contractsInOrder, List.filterMap_append]

/-- C5: `validateChronologicalOrder` flags a violation exactly when a
loaded contract has both endpoints present in the supplied task list and
the `to` task's effective date (due date if set, else creation date)
strictly precedes the `from` task's; contracts with a missing endpoint are
skipped and produce nothing.  The output is exactly the list of messages of
the violating contracts, in iteration order; in particular (last conjunct),
task A due 2024-01-10 (day 19732) blocking task B due 2024-01-05 (day
19727) yields exactly one violation naming B and A. -/
theorem c5_chronological_order (m : ContractMap) (tasks : List TaskDates) :
    (validateChronologicalOrderD m tasks =
      (contractsInOrder m).filterMap (chronoViolation? tasks)) ∧
    (∀ s, s ∈ validateChronologicalOrderD m tasks ↔
      ∃ c ∈ contractsInOrder m, chronoViolation? tasks c = some s) ∧
    validateChronologicalOrderD
        (loadContracts [⟨"A", "B", .blocks, none, none, ⟨false, none⟩⟩])
        [⟨"A", some 19732, 19700⟩, ⟨"B", some 19727, 19700⟩] =
      ["Task B has due date before dependency A"] := by
  have h1 : validateChronologicalOrderD m tasks =
      (contractsInOrder m).filterMap (chronoViolation? tasks) := by
    rw [validateChronologicalOrderD]
    exact chronoOuter tasks m []
  refine ⟨h1, ?_, by decide⟩
  intro s
  rw [h1, List.mem_filterMap]

/-- C2 fails on the code: with a journal holding one well-formed entry and
one malformed line, `replay` returns `[]` — the well-formed entry is *not*
still returned.  (`JSON.parse` throws inside `.map`, the surrounding catch
swallows the exception, and the whole result is discarded.) -/
theorem c2_replay_counterexample :
    replayD "root" exStMalformed "A" = [] ∧
    (.ok exEntryV) ∈ [JLine.ok exEntryV, JLine.bad "oops"] ∧
    exEntryV ∉ replayD "root" exStMalformed "A" := by
  refine ⟨by decide, by decide, ?_⟩
  rw [show replayD "root" exStMalformed "A" = [] from by decide]
  exact List.not_mem_nil exEntryV

/-- C2 amended: `replay` never raises, but when any non-whitespace journal
line is unparseable it silently discards *all* content and returns the
empty list — the remaining well-formed entries are lost too.  Only when
every kept (non-blank) line parses are the entries returned, in file
order. -/
theorem c2_replay_amended (rootDir : String) (st : St) (initiativeId : String)
    (ls : List JLine)
    (hj : findE st (journalPath rootDir initiativeId) =
      some (.file (.jsonl ls))) :
    ((∃ l ∈ ls, lineKept l = true ∧ parseLine l = none) →
      replayD rootDir st initiativeId = []) ∧
    ((∀ l ∈ ls, lineKept l = true → (parseLine l).isSome) →
      replayD rootDir st initiativeId =
        (ls.filter lineKept).filterMap parseLine) := by
  constructor
  · rintro ⟨l, hl, hkept, hbad⟩
    rw [replayD, readFileD, hj]
    have hall : ((ls.filter lineKept).all fun l => (parseLine l).isSome) = false := by
      rw [List.all_eq_false]
      exact ⟨l, List.mem_filter.2 ⟨hl, hkept⟩, by simp [hbad]⟩
    simp only [hall]
    rfl
  · intro hgood
    rw [replayD, readFileD, hj]
    have hall : ((ls.filter lineKept).all fun l => (parseLine l).isSome) = true := by
      rw [List.all_eq_true]
      intro l hl
      obtain ⟨hmem, hkept⟩ := List.mem_filter.1 hl
      simpa using hgood l hmem hkept
    simp only [hall]
    rfl

/-- Closed instance of the amended C2: the malformed-line journal replays
to `[]`, and the same journal without the malformed line replays to its
entry. -/
theorem c2_replay_amended_witness :
    replayD "root" exStMalformed "A" = [] ∧
    replayD "root"
      [(["root"], .dir), (["root", "A"], .dir),
       (["root", "A", "journal.jsonl"], .file (.jsonl [.ok exEntryV]))]
      "A" = [exEntryV] := by
  constructor
  · exact (c2_replay_amended "root" exStMalformed "A"
      [.ok exEntryV, .bad "oops"] (by decide)).1
      ⟨.bad "oops", by decide, by decide, rfl⟩
  · exact (c2_replay_amended "root" _ "A" [.ok exEntryV] (by decide)).2
      (by decide)

/-- Mapping a function that fixes every element of a list is the identity. -/
theorem map_eq_self_of_mem {α : Type} {f : α → α} : ∀ {l : List α},
    (∀ x ∈ l, f x = x) → l.map f = l
  | [], _ => rfl
  | x :: l, h => by
      rw [List.map_cons, h x (List.mem_cons_self x l),
        map_eq_self_of_mem (fun y hy => h y (List.mem_cons_of_mem x hy))]

/-- Dropping whitespace-only lines does not change the parsed entries:
every line the filter drops is unparseable anyway. -/
theorem filterMap_parseLine_filter : ∀ ls : List JLine,
    (ls.filter lineKept).filterMap parseLine = ls.filterMap parseLine
  | [] => rfl
  | l :: ls => by
      cases l with
      | ok v =>
          simp [List.filter_cons, lineKept, List.filterMap_cons, parseLine,
            filterMap_parseLine_filter ls]
      | bad s =>
          by_cases hk : lineKept (JLine.bad s) = true
          · simp [List.filter_cons, hk, List.filterMap_cons, parseLine,
              filterMap_parseLine_filter ls]
          · simp only [List.filter_cons, hk, if_false, Bool.false_eq_true,
              List.filterMap_cons, parseLine, filterMap_parseLine_filter ls]

/-- C10 fails on the code: the journal holds a whitespace-only line, which
is not valid JSON (`JSON.parse` rejects it), yet `markComplete` completes
without raising — the line is filtered out before parsing. -/
theorem c10_mark_complete_counterexample :
    (markCompleteD "root" exStBlank "A" "nomatch").1 = none ∧
    parseLine (.bad "   ") = none ∧ (JLine.bad "   ") ∈
      [JLine.ok exEntryV, JLine.bad "   "] :=
  ⟨by decide, rfl, by decide⟩

/-- C10 amended: `markComplete` raises — leaving the journal untouched —
whenever the journal file is missing or any line *with non-whitespace
content* is not valid JSON (whitespace-only lines are filtered out before
parsing and never cause an error); when every kept line parses and no entry
matches, it completes without error, rewriting the file with the kept lines
and leaving every entry's content and status unchanged. -/
theorem c10_mark_complete_amended (rootDir : String) (st : St)
    (initiativeId entryId : String) :
    (findE st (journalPath rootDir initiativeId) = none →
      markCompleteD rootDir st initiativeId entryId = (some "ENOENT", st)) ∧
    (∀ ls, findE st (journalPath rootDir initiativeId) =
        some (.file (.jsonl ls)) →
      (∃ l ∈ ls, lineKept l = true ∧ parseLine l = none) →
      markCompleteD rootDir st initiativeId entryId =
        (some "SyntaxError: JSON.parse", st)) ∧
    (∀ ls, findE st (journalPath rootDir initiativeId) =
        some (.file (.jsonl ls)) →
      ((ls.filter lineKept).all fun l => (parseLine l).isSome) = true →
      (ls.all fun l => match l with
        | .ok v => !(v.idIs entryId)
        | .bad _ => true) = true →
      findE st (journalPath rootDir initiativeId).dropLast = some .dir →
      markCompleteD rootDir st initiativeId entryId =
        (none, setE st (journalPath rootDir initiativeId)
          (.file (.jsonl (ls.filter lineKept)))) ∧
      (ls.filter lineKept).filterMap parseLine = ls.filterMap parseLine) := by
  refine ⟨?_, ?_, ?_⟩
  · intro hj
    rw [markCompleteD, readFileD, hj]
  · intro ls hj ⟨l, hl, hkept, hbad⟩
    rw [markCompleteD, readFileD, hj]
    have hall : ((ls.filter lineKept).all fun l => (parseLine l).isSome) = false := by
      rw [List.all_eq_false]
      exact ⟨l, List.mem_filter.2 ⟨hl, hkept⟩, by simp [hbad]⟩
    simp only [hall]
    rfl
  · intro ls hj hgood hfresh hpar
    refine ⟨?_, filterMap_parseLine_filter ls⟩
    rw [markCompleteD, readFileD, hj]
    simp only [hgood, if_true]
    have hmap : ((ls.filter lineKept).map fun l =>
        match l with
        | .ok v => if v.idIs entryId then JLine.ok v.setStatusCompleted
                   else .ok v
        | .bad s => .bad s) = ls.filter lineKept := by
      apply map_eq_self_of_mem
      intro l hl
      obtain ⟨hmem, _⟩ := List.mem_filter.1 hl
      cases l with
      | ok v =>
          have := List.all_eq_true.1 hfresh _ hmem
          simp only [Bool.not_eq_true'] at this
          simp [this]
      | bad s => rfl
    rw [hmap, writeFileD, hj, hpar]

/-- Closed instance of the amended C10: a missing journal rejects with the
store untouched, and completion with no matching entry rewrites the journal
with its (unchanged) entries. -/
theorem c10_mark_complete_amended_witness :
    markCompleteD "root" [] "A" "e1" = (some "ENOENT", []) ∧
    markCompleteD "root" exStGood "A" "zz" =
      (none, setE exStGood (journalPath "root" "A")
        (.file (.jsonl ([JLine.ok exEntryV].filter lineKept)))) ∧
    ([JLine.ok exEntryV].filter lineKept).filterMap parseLine =
      [JLine.ok exEntryV].filterMap parseLine := by
  refine ⟨(c10_mark_complete_amended "root" [] "A" "e1").1 rfl, ?_, ?_⟩
  · exact ((c10_mark_complete_amended "root" exStGood "A" "zz").2.2
      [.ok exEntryV] (by decide) (by decide) (by decide) (by decide)).1
  · exact ((c10_mark_complete_amended "root" exStGood "A" "zz").2.2
      [.ok exEntryV] (by decide) (by decide) (by decide) (by decide)).2

/-- The generated journal entry carries the generated id. -/
theorem idIs_journalFullEntry (entryId timestamp : String)
    (e : JournalEntryInput) :
    (journalFullEntry entryId timestamp e).idIs entryId = true := by
  simp [journalFullEntry, Json.idIs, Json.getField]

/-- Completing the generated journal entry rewrites its `status` field in
place and keeps its id. -/
theorem setStatusCompleted_journalFullEntry (entryId timestamp : String)
    (e : JournalEntryInput) :
    (journalFullEntry entryId timestamp e).setStatusCompleted =
      .obj [("id", .str entryId), ("timestamp", .str timestamp),
            ("initiativeId", .str e.initiativeId),
            ("operation", .str e.operation), ("payload", e.payload),
            ("status", .str "completed"), ("requestId", .str e.requestId)] := by
  simp [journalFullEntry, Json.setStatusCompleted, Json.fieldsSet,
    JournalEntryInput.fieldsJson]

/-- The completed generated entry still carries the generated id. -/
theorem idIs_setStatusCompleted_full (entryId timestamp : String)
    (e : JournalEntryInput) :
    (journalFullEntry entryId timestamp e).setStatusCompleted.idIs entryId
      = true := by
  rw [setStatusCompleted_journalFullEntry]
  simp [Json.idIs, Json.getField]

/-- The journal path is the initiative directory plus one final segment. -/
theorem journalPath_eq (rootDir initiativeId : String) :
    journalPath rootDir initiativeId =
      pathJoin (segsOf rootDir) initiativeId ++ ["journal.jsonl"] := by
  rw [journalPath, pathJoin, show segsOf "journal.jsonl" = ["journal.jsonl"]
    from by decide]

/-- `mkdirp` (in destructured form) leaves paths outside the created
prefix chain unchanged. -/
theorem mkdirp_eq_findE_ne {st st' : St} {p q : Path} {r : Option String}
    (hmk : mkdirp st p = (r, st'))
    (h : ∀ qq ∈ pathPrefixes p, qq ≠ q) :
    findE st' q = findE st q := by
  have hh := @mkdirp_findE_ne st p q h
  rw [hmk] at hh
  exact hh

/-- C3: from a well-formed journal (or none) with no entry carrying the
fresh id, appending entry E and marking the returned id complete leaves
every prior line in place and the new entry present (never deleted), and
`replay` then returns E's generated entry exactly once — with status
`completed` — after the prior entries. -/
theorem c3_append_complete_replay (rootDir : String) (st : St)
    (initiativeId entryId timestamp : String) (entry : JournalEntryInput)
    (ls : List JLine) (st1 : St)
    (hj : findE st (journalPath rootDir initiativeId) = none ∧ ls = [] ∨
      findE st (journalPath rootDir initiativeId) = some (.file (.jsonl ls)))
    (hwf : ∀ l ∈ ls, ∃ v, l = JLine.ok v ∧ v.idIs entryId = false)
    (happ : appendD rootDir st initiativeId entryId timestamp entry =
      (none, st1)) :
    ∃ st2, markCompleteD rootDir st1 initiativeId entryId = (none, st2) ∧
      findE st2 (journalPath rootDir initiativeId) =
        some (.file (.jsonl (ls ++
          [.ok (journalFullEntry entryId timestamp entry).setStatusCompleted]))) ∧
      replayD rootDir st2 initiativeId =
        ls.filterMap parseLine ++
          [(journalFullEntry entryId timestamp entry).setStatusCompleted] ∧
      (replayD rootDir st2 initiativeId).filter
          (fun v => v.idIs entryId) =
        [(journalFullEntry entryId timestamp entry).setStatusCompleted] := by
  set jp := journalPath rootDir initiativeId with hjp
  set dirP := pathJoin (segsOf rootDir) initiativeId with hdirP
  have hjp_eq : jp = dirP ++ ["journal.jsonl"] := journalPath_eq _ _
  have hdir_ne : dirP ≠ [] := pathJoin_ne_nil _ _
  have hjp_dropLast : jp.dropLast = dirP := by
    rw [hjp_eq, List.dropLast_concat]
  have hjp_ne_dirP : dirP ≠ jp := by
    rw [hjp_eq]
    intro h
    have := congrArg List.length h
    simp at this
  -- destructure the append
  rw [appendD] at happ
  obtain ⟨stm, hmk, happL⟩ := andThenE_none happ
  have hdirm : findE stm dirP = some .dir := mkdirp_ok_dir hmk hdir_ne
  have hjpm : findE stm jp = findE st jp := by
    apply mkdirp_eq_findE_ne hmk
    intro qq hqq
    have hlen := length_of_mem_pathPrefixes hqq
    intro h
    rw [h, hjp_eq] at hlen
    simp at hlen
  set fullE := journalFullEntry entryId timestamp entry with hfullE
  have hst1 : st1 = setE stm jp (.file (.jsonl (ls ++ [.ok fullE]))) := by
    rcases appendLineD_none happL with ⟨ls', hfind, hset⟩ | ⟨hnone, _, hset⟩
    · rw [hjpm] at hfind
      rcases hj with ⟨hnone, _⟩ | hsome
      · rw [hnone] at hfind; exact Option.noConfusion hfind
      · rw [hsome] at hfind
        injection hfind with h
        injection h with h
        injection h with h
        rw [hset, h]
    · rw [hjpm] at hnone
      rcases hj with ⟨_, rfl⟩ | hsome
      · rw [hset]; rfl
      · rw [hsome] at hnone; exact Option.noConfusion hnone
  have hfind1 : findE st1 jp = some (.file (.jsonl (ls ++ [.ok fullE]))) := by
    rw [hst1]; exact findE_setE_self _ _ _
  have hpar1 : findE st1 dirP = some .dir := by
    rw [hst1, findE_setE_ne _ _ _ _ hjp_ne_dirP]
    exact hdirm
  -- every line of the extended journal is a kept, parseable `ok` line
  have hwf1 : ∀ l ∈ ls ++ [JLine.ok fullE], ∃ v, l = JLine.ok v := by
    intro l hl
    rcases List.mem_append.1 hl with hl | hl
    · obtain ⟨v, hv, _⟩ := hwf l hl
      exact ⟨v, hv⟩
    · exact ⟨fullE, List.mem_singleton.1 hl⟩
  have hkeep : (ls ++ [JLine.ok fullE]).filter lineKept =
      ls ++ [JLine.ok fullE] := by
    rw [List.filter_eq_self]
    intro l hl
    obtain ⟨v, rfl⟩ := hwf1 l hl
    rfl
  have hall : ((ls ++ [JLine.ok fullE]).all
      fun l => (parseLine l).isSome) = true := by
    rw [List.all_eq_true]
    intro l hl
    obtain ⟨v, rfl⟩ := hwf1 l hl
    rfl
  -- the completion rewrite updates exactly the appended line
  have hmap : ((ls ++ [JLine.ok fullE]).map fun l =>
      match l with
      | .ok v => if v.idIs entryId then JLine.ok v.setStatusCompleted
                 else .ok v
      | .bad s => .bad s) = ls ++ [.ok fullE.setStatusCompleted] := by
    rw [List.map_append]
    congr 1
    · apply map_eq_self_of_mem
      intro l hl
      obtain ⟨v, rfl, hid⟩ := hwf l hl
      simp [hid]
    · simp [hfullE, idIs_journalFullEntry]
  obtain ⟨st2, hwrite⟩ : ∃ st2,
      writeFileD st1 jp (.jsonl (ls ++ [.ok fullE.setStatusCompleted])) =
        (none, st2) := by
    rw [writeFileD, hfind1, hjp_dropLast, hpar1]
    exact ⟨_, rfl⟩
  have hst2 : st2 = setE st1 jp
      (.file (.jsonl (ls ++ [.ok fullE.setStatusCompleted]))) :=
    (writeFileD_none hwrite).1
  have hmark : markCompleteD rootDir st1 initiativeId entryId = (none, st2) := by
    rw [markCompleteD, readFileD, hfind1]
    simp only [hkeep, hall, if_true, hmap]
    exact hwrite
  have hfind2 : findE st2 jp =
      some (.file (.jsonl (ls ++ [.ok fullE.setStatusCompleted]))) := by
    rw [hst2]; exact findE_setE_self _ _ _
  -- replay of the completed journal
  have hwf2 : ∀ l ∈ ls ++ [JLine.ok fullE.setStatusCompleted],
      ∃ v, l = JLine.ok v := by
    intro l hl
    rcases List.mem_append.1 hl with hl | hl
    · obtain ⟨v, hv, _⟩ := hwf l hl
      exact ⟨v, hv⟩
    · exact ⟨fullE.setStatusCompleted, List.mem_singleton.1 hl⟩
  have hkeep2 : (ls ++ [JLine.ok fullE.setStatusCompleted]).filter lineKept =
      ls ++ [JLine.ok fullE.setStatusCompleted] := by
    rw [List.filter_eq_self]
    intro l hl
    obtain ⟨v, rfl⟩ := hwf2 l hl
    rfl
  have hall2 : ((ls ++ [JLine.ok fullE.setStatusCompleted]).all
      fun l => (parseLine l).isSome) = true := by
    rw [List.all_eq_true]
    intro l hl
    obtain ⟨v, rfl⟩ := hwf2 l hl
    rfl
  have hreplay : replayD rootDir st2 initiativeId =
      ls.filterMap parseLine ++ [fullE.setStatusCompleted] := by
    rw [replayD, readFileD, hfind2]
    simp only [hkeep2, hall2, if_true]
    rw [List.filterMap_append]
    rfl
  refine ⟨st2, hmark, hfind2, hreplay, ?_⟩
  rw [hreplay, List.filter_append]
  have hfirst : (ls.filterMap parseLine).filter
      (fun v => v.idIs entryId) = [] := by
    rw [List.filter_eq_nil_iff]
    intro v hv
    obtain ⟨l, hl, hpl⟩ := List.mem_filterMap.1 hv
    obtain ⟨w, rfl, hid⟩ := hwf l hl
    have : v = w := by
      injection hpl with h; exact h.symm
    rw [this, hid]
    exact Bool.false_ne_true
  rw [hfirst]
  simp [hfullE, idIs_setStatusCompleted_full]

/-- Closed instance of C3: starting from the empty store, append an entry,
mark it complete, and replay — the completed entry comes back exactly
once. -/
theorem c3_append_complete_replay_witness :
    ∃ st2, markCompleteD "root"
        (appendD "root" [] "A" "e1" "2024" exEntryInput).2 "A" "e1" =
        (none, st2) ∧
      findE st2 (journalPath "root" "A") =
        some (.file (.jsonl ([] ++
          [.ok (journalFullEntry "e1" "2024" exEntryInput).setStatusCompleted]))) ∧
      replayD "root" st2 "A" =
        List.filterMap parseLine [] ++
          [(journalFullEntry "e1" "2024" exEntryInput).setStatusCompleted] ∧
      (replayD "root" st2 "A").filter (fun v => v.idIs "e1") =
        [(journalFullEntry "e1" "2024" exEntryInput).setStatusCompleted] :=
  c3_append_complete_replay "root" [] "A" "e1" "2024" exEntryInput [] _
    (Or.inl ⟨rfl, rfl⟩) (by simp) rfl

/-- After tampering with either the content file or the sidecar of a
written-and-signed file, signature verification fails. -/
theorem tampered_verify_false {cfg : FilesystemConfig} {st' : St} {p : Path}
    {orig : FData}
    (hc : findE st' p = some (.file orig))
    (hsig : findE st' (sigPath p) =
      some (.file (.hmacHex cfg.signingKey (.sha256Hex orig))))
    (hp : p ≠ []) :
    (∀ c', c' ≠ orig →
      verifySignatureD cfg (setE st' p (.file c')) p = false) ∧
    (∀ d, d ≠ orig →
      verifySignatureD cfg
        (setE st' (sigPath p)
          (.file (.hmacHex cfg.signingKey (.sha256Hex d)))) p = false) := by
  constructor
  · intro c' hne
    rw [verifySignatureD, readFileD, findE_setE_self, readFileD,
      findE_setE_ne _ _ _ _ (sigPath_ne_self hp), hsig]
    rw [beq_eq_false_iff_ne]
    intro h
    injection h with h1 h2
    injection h2 with h3
    exact hne h3.symm
  · intro d hne
    rw [verifySignatureD, readFileD,
      findE_setE_ne _ _ _ _ (Ne.symm (sigPath_ne_self hp)), hc, readFileD,
      findE_setE_self]
    rw [beq_eq_false_iff_ne]
    intro h
    injection h with h1 h2
    injection h2 with h3
    exact hne h3

/-- C6: after a valid write, any alteration of the content file — replacing
its content with anything different — and likewise replacing the sidecar
with a valid sidecar computed from different content, makes the next read
report the resource unavailable (`null` for initiatives and tasks, the
empty list for dependency contracts); tampered data is never returned. -/
theorem c6_tamper_detection (cfg : FilesystemConfig) (st : St) (t : Task)
    (i2 : Initiative) (iid : String) (ds : List DependencyContract) :
    (∀ st', writeTaskD cfg st t = (none, st') →
      (∀ c', c' ≠ .jsonText t.toJson 2 →
        readTaskD cfg
          (setE st' (taskFilePath cfg t.initiativeId t.id) (.file c'))
          t.initiativeId t.id = none) ∧
      (∀ d, d ≠ .jsonText t.toJson 2 →
        readTaskD cfg
          (setE st' (sigPath (taskFilePath cfg t.initiativeId t.id))
            (.file (.hmacHex cfg.signingKey (.sha256Hex d))))
          t.initiativeId t.id = none)) ∧
    (∀ st', writeInitiativeD cfg st i2 = (none, st') →
      (∀ c', c' ≠ .jsonText i2.toJson 2 →
        readInitiativeD cfg (setE st' (manifestPath cfg i2.id) (.file c'))
          i2.id = none) ∧
      (∀ d, d ≠ .jsonText i2.toJson 2 →
        readInitiativeD cfg
          (setE st' (sigPath (manifestPath cfg i2.id))
            (.file (.hmacHex cfg.signingKey (.sha256Hex d))))
          i2.id = none)) ∧
    (∀ st', writeDependenciesD cfg st iid ds = (none, st') →
      (∀ c', c' ≠ .jsonText (.arr (ds.map DependencyContract.toJson)) 2 →
        readDependenciesD cfg (setE st' (depsPath cfg iid) (.file c')) iid =
          .arr []) ∧
      (∀ d, d ≠ .jsonText (.arr (ds.map DependencyContract.toJson)) 2 →
        readDependenciesD cfg
          (setE st' (sigPath (depsPath cfg iid))
            (.file (.hmacHex cfg.signingKey (.sha256Hex d)))) iid =
          .arr [])) := by
  refine ⟨?_, ?_, ?_⟩
  · intro st' hww
    rw [writeTaskD] at hww
    obtain ⟨s1, s2, hens, hw, hs⟩ := chain3_none hww
    obtain ⟨hc, hsig, _⟩ := written_signed (pathJoin_ne_nil _ _) hw hs
    obtain ⟨hv1, hv2⟩ := tampered_verify_false hc hsig (pathJoin_ne_nil _ _)
    constructor
    · intro c' hne
      rw [readTaskD, readFileD]
      rw [show taskFilePath cfg t.initiativeId t.id =
        pathJoin (tasksDirPath cfg t.initiativeId) (t.id ++ ".json") from rfl]
      rw [findE_setE_self, hv1 c' hne]
      simp
    · intro d hne
      rw [readTaskD, readFileD]
      rw [show taskFilePath cfg t.initiativeId t.id =
        pathJoin (tasksDirPath cfg t.initiativeId) (t.id ++ ".json") from rfl]
      rw [findE_setE_ne _ _ _ _
        (Ne.symm (sigPath_ne_self (pathJoin_ne_nil _ _))), hc, hv2 d hne]
      simp
  · intro st' hww
    rw [writeInitiativeD] at hww
    obtain ⟨s1, s2, hens, hw, hs⟩ := chain3_none hww
    obtain ⟨hc, hsig, _⟩ := written_signed (pathJoin_ne_nil _ _) hw hs
    obtain ⟨hv1, hv2⟩ := tampered_verify_false hc hsig (pathJoin_ne_nil _ _)
    constructor
    · intro c' hne
      rw [readInitiativeD, readFileD]
      rw [show manifestPath cfg i2.id =
        pathJoin (initiativeDirPath cfg i2.id) "manifest.json" from rfl]
      rw [findE_setE_self, hv1 c' hne]
      simp
    · intro d hne
      rw [readInitiativeD, readFileD]
      rw [show manifestPath cfg i2.id =
        pathJoin (initiativeDirPath cfg i2.id) "manifest.json" from rfl]
      rw [findE_setE_ne _ _ _ _
        (Ne.symm (sigPath_ne_self (pathJoin_ne_nil _ _))), hc, hv2 d hne]
      simp
  · intro st' hww
    rw [writeDependenciesD] at hww
    obtain ⟨s1, s2, hens, hw, hs⟩ := chain3_none hww
    obtain ⟨hc, hsig, _⟩ := written_signed (pathJoin_ne_nil _ _) hw hs
    obtain ⟨hv1, hv2⟩ := tampered_verify_false hc hsig (pathJoin_ne_nil _ _)
    constructor
    · intro c' hne
      rw [readDependenciesD, readFileD]
      rw [show depsPath cfg iid =
        pathJoin (initiativeDirPath cfg iid) "dependencies.json" from rfl]
      rw [findE_setE_self, hv1 c' hne]
      simp
    · intro d hne
      rw [readDependenciesD, readFileD]
      rw [show depsPath cfg iid =
        pathJoin (initiativeDirPath cfg iid) "dependencies.json" from rfl]
      rw [findE_setE_ne _ _ _ _
        (Ne.symm (sigPath_ne_self (pathJoin_ne_nil _ _))), hc, hv2 d hne]
      simp

/-- Closed instance of C6: after writing a task (or initiative), replacing
the content file with different bytes, or the sidecar with a signature of
different content, makes the next read return `null`. -/
theorem c6_tamper_detection_witness :
    readTaskD exCfg
      (setE (writeTaskD exCfg [] exTask).2 (taskFilePath exCfg "X" "t1")
        (.file (.raw "corrupt"))) "X" "t1" = none ∧
    readTaskD exCfg
      (setE (writeTaskD exCfg [] exTask).2
        (sigPath (taskFilePath exCfg "X" "t1"))
        (.file (.hmacHex "key" (.sha256Hex (.raw "other"))))) "X" "t1" =
      none ∧
    readInitiativeD exCfg
      (setE (writeInitiativeD exCfg [] exInitiative).2
        (sigPath (manifestPath exCfg "I"))
        (.file (.hmacHex "key" (.sha256Hex (.raw "other"))))) "I" =
      none := by
  refine ⟨?_, ?_, ?_⟩
  · exact ((c6_tamper_detection exCfg [] exTask exInitiative "X" []).1 _
      rfl).1 (.raw "corrupt") (by decide)
  · exact ((c6_tamper_detection exCfg [] exTask exInitiative "X" []).1 _
      rfl).2 (.raw "other") (by decide)
  · exact ((c6_tamper_detection exCfg [] exTask exInitiative "X" []).2.1 _
      rfl).2 (.raw "other") (by decide)

/-- A missing sidecar makes verification fail. -/
theorem verifySignatureD_false_of_sig_missing {cfg : FilesystemConfig}
    {st : St} {p : Path} (h : findE st (sigPath p) = none) :
    verifySignatureD cfg st p = false := by
  rw [verifySignatureD,
    show readFileD st (sigPath p) = .error "ENOENT" from by rw [readFileD, h]]
  cases readFileD st p <;> rfl

/-- `readTask` returns `null` whenever verification fails. -/
theorem readTaskD_none_of_verify_false {cfg : FilesystemConfig} {st : St}
    {initiativeId taskId : String}
    (h : verifySignatureD cfg st (taskFilePath cfg initiativeId taskId) = false) :
    readTaskD cfg st initiativeId taskId = none := by
  rw [readTaskD]
  cases hc : readFileD st (taskFilePath cfg initiativeId taskId) with
  | error e => rfl
  | ok c => simp [h]

/-- `readInitiative` returns `null` whenever verification fails. -/
theorem readInitiativeD_none_of_verify_false {cfg : FilesystemConfig}
    {st : St} {initiativeId : String}
    (h : verifySignatureD cfg st (manifestPath cfg initiativeId) = false) :
    readInitiativeD cfg st initiativeId = none := by
  rw [readInitiativeD]
  cases hc : readFileD st (manifestPath cfg initiativeId) with
  | error e => rfl
  | ok c => simp [h]

/-- `readDependencies` returns the empty array whenever verification
fails. -/
theorem readDependenciesD_empty_of_verify_false {cfg : FilesystemConfig}
    {st : St} {initiativeId : String}
    (h : verifySignatureD cfg st (depsPath cfg initiativeId) = false) :
    readDependenciesD cfg st initiativeId = .arr [] := by
  rw [readDependenciesD]
  cases hc : readFileD st (depsPath cfg initiativeId) with
  | error e => rfl
  | ok c => simp [h]

/-- C7: on any failure — missing content file, missing sidecar, signature
mismatch (verification failure), or malformed (unparseable) content —
`readInitiative` and `readTask` return `null` and `readDependencies`
returns the empty list.  All three reads are total functions of the store
(the model of the source's catch-all `try`/`catch`): no failure is raised
to the caller. -/
theorem c7_read_failure_null (cfg : FilesystemConfig) (st : St)
    (initiativeId taskId : String) :
    ((findE st (taskFilePath cfg initiativeId taskId) = none →
        readTaskD cfg st initiativeId taskId = none) ∧
      (findE st (sigPath (taskFilePath cfg initiativeId taskId)) = none →
        readTaskD cfg st initiativeId taskId = none) ∧
      (verifySignatureD cfg st (taskFilePath cfg initiativeId taskId) = false →
        readTaskD cfg st initiativeId taskId = none) ∧
      (∀ c, findE st (taskFilePath cfg initiativeId taskId) =
          some (.file c) → c.parseJson = none →
        readTaskD cfg st initiativeId taskId = none)) ∧
    ((findE st (manifestPath cfg initiativeId) = none →
        readInitiativeD cfg st initiativeId = none) ∧
      (findE st (sigPath (manifestPath cfg initiativeId)) = none →
        readInitiativeD cfg st initiativeId = none) ∧
      (verifySignatureD cfg st (manifestPath cfg initiativeId) = false →
        readInitiativeD cfg st initiativeId = none) ∧
      (∀ c, findE st (manifestPath cfg initiativeId) = some (.file c) →
        c.parseJson = none → readInitiativeD cfg st initiativeId = none)) ∧
    ((findE st (depsPath cfg initiativeId) = none →
        readDependenciesD cfg st initiativeId = .arr []) ∧
      (findE st (sigPath (depsPath cfg initiativeId)) = none →
        readDependenciesD cfg st initiativeId = .arr []) ∧
      (verifySignatureD cfg st (depsPath cfg initiativeId) = false →
        readDependenciesD cfg st initiativeId = .arr []) ∧
      (∀ c, findE st (depsPath cfg initiativeId) = some (.file c) →
        c.parseJson = none → readDependenciesD cfg st initiativeId = .arr [])) := by
  refine ⟨⟨?_, ?_, ?_, ?_⟩, ⟨?_, ?_, ?_, ?_⟩, ⟨?_, ?_, ?_, ?_⟩⟩
  · intro h
    rw [readTaskD, readFileD, h]
  · intro h
    exact readTaskD_none_of_verify_false (verifySignatureD_false_of_sig_missing h)
  · exact readTaskD_none_of_verify_false
  · intro c hc hp
    rw [readTaskD, readFileD, hc]
    by_cases hv : verifySignatureD cfg st (taskFilePath cfg initiativeId taskId) =
        true <;> simp [hv, hp]
  · intro h
    rw [readInitiativeD, readFileD, h]
  · intro h
    exact readInitiativeD_none_of_verify_false
      (verifySignatureD_false_of_sig_missing h)
  · exact readInitiativeD_none_of_verify_false
  · intro c hc hp
    rw [readInitiativeD, readFileD, hc]
    by_cases hv : verifySignatureD cfg st (manifestPath cfg initiativeId) =
        true <;> simp [hv, hp]
  · intro h
    rw [readDependenciesD, readFileD, h]
  · intro h
    exact readDependenciesD_empty_of_verify_false
      (verifySignatureD_false_of_sig_missing h)
  · exact readDependenciesD_empty_of_verify_false
  · intro c hc hp
    rw [readDependenciesD, readFileD, hc]
    by_cases hv : verifySignatureD cfg st (depsPath cfg initiativeId) =
        true <;> simp [hv, hp]

/-- Closed instance of C7: on the empty store every read reports the
resource unavailable. -/
theorem c7_read_failure_null_witness :
    readTaskD exCfg [] "I" "t1" = none ∧
    readInitiativeD exCfg [] "I" = none ∧
    readDependenciesD exCfg [] "I" = .arr [] :=
  ⟨(c7_read_failure_null exCfg [] "I" "t1").1.1 rfl,
   (c7_read_failure_null exCfg [] "I" "t1").2.1.1 rfl,
   (c7_read_failure_null exCfg [] "I" "t1").2.2.1 rfl⟩

